import Mathlib

/-!
Formal model of the clawsidian save pipeline: URL validation/normalization,
duplicate detection, the on-disk work queue, and the save orchestrator.

JavaScript strings are modelled as `List Char`; the WHATWG `URL` platform
parser is modelled by `parseUrlChars` below, restricted to the canonical
absolute form `scheme://host[:port]path[?query][#fragment]` (no userinfo,
canonical decimal ports); percent-encoding and IPv4/punycode host
canonicalization are outside the model's universe of raw strings.
-/

namespace Clawsidian

/-- Split a list at the first occurrence of `c`, dropping the separator. -/
def splitFirst (c : Char) : List Char → Option (List Char × List Char)
  | [] => none
  | x :: xs =>
    if x = c then some ([], xs)
    else (splitFirst c xs).map (fun p => (x :: p.1, p.2))

/-- Break a list at the first character satisfying `p` (separator kept in the tail). -/
def breakWhen (p : Char → Bool) : List Char → List Char × List Char
  | [] => ([], [])
  | x :: xs =>
    if p x then ([], x :: xs)
    else
      let r := breakWhen p xs
      (x :: r.1, r.2)

/-- Split a list at every occurrence of `c` (like `String.prototype.split`). -/
def splitAll (c : Char) : List Char → List (List Char)
  | [] => [[]]
  | x :: xs =>
    match splitAll c xs with
    | [] => [[]]
    | h :: t => if x = c then [] :: h :: t else (x :: h) :: t

/-- Split at the first occurrence of the sub-list `pat` (non-greedy regex match). -/
def splitSub (pat : List Char) : List Char → Option (List Char × List Char)
  | [] => if pat.isEmpty then some ([], []) else none
  | x :: xs =>
    if pat.isPrefixOf (x :: xs) then some ([], (x :: xs).drop pat.length)
    else (splitSub pat xs).map (fun p => (x :: p.1, p.2))

/-- ASCII lower-casing of one character (JS `toLowerCase` restricted to ASCII). -/
def lowerChar (c : Char) : Char :=
  if 'A' ≤ c ∧ c ≤ 'Z' then Char.ofNat (c.toNat + 32) else c

/-- ASCII lower-casing of a JS string. -/
def lowerList (l : List Char) : List Char := l.map lowerChar

/-- JS whitespace test (ASCII fragment), as used by `String.prototype.trim`. -/
def isWsChar (c : Char) : Bool :=
  c == ' ' || c == '\t' || c == '\n' || c == '\r' || c == '\x0b' || c == '\x0c'

/-- JS `String.prototype.trim` on the ASCII fragment. -/
def trimChars (l : List Char) : List Char :=
  ((l.dropWhile isWsChar).reverse.dropWhile isWsChar).reverse

/-- Decimal value of a digit string (used for port range checks). -/
def natOfDigits (l : List Char) : Nat :=
  l.foldl (fun acc c => acc * 10 + (c.toNat - '0'.toNat)) 0

/-- A non-empty digit string with no leading zero. -/
def noLeadingZero : List Char → Bool
  | [] => false
  | c :: rest => c ≠ '0' || rest.isEmpty

/-- A canonical decimal port string: digits only, no leading zero, ≤ 65535. -/
def canonicalPort (l : List Char) : Bool :=
  l.all (·.isDigit) && noLeadingZero l && natOfDigits l ≤ 65535

/-- Scheme characters accepted by the URL parser. -/
def isSchemeChar (c : Char) : Bool :=
  c.isAlpha || c.isDigit || c == '+' || c == '-' || c == '.'

/-- The components of a parsed URL (WHATWG `URL` object model). -/
structure URLRec where
  scheme : List Char
  hostname : List Char
  port : Option (List Char)
  path : List Char
  query : Option (List (List Char × List Char))
  fragment : Option (List Char)
deriving DecidableEq

/-- Parse one `name=value` piece of a query string; empty pieces are skipped
(as `URLSearchParams` does). -/
def parseParamPiece (piece : List Char) : Option (List Char × List Char) :=
  if piece.isEmpty then none
  else
    match splitFirst '=' piece with
    | none => some (piece, [])
    | some (n, v) => some (n, v)

/-- Parse a raw query string into its `URLSearchParams` list. -/
def parseParams (l : List Char) : List (List Char × List Char) :=
  (splitAll '&' l).filterMap parseParamPiece

/-- Parse an authority part (no userinfo in the model's universe):
either `host[:port]` or a bracketed IPv6 literal `[…][:port]`; hosts are
lower-cased as the WHATWG host parser does. -/
def parseAuthority (l : List Char) : Option (List Char × Option (List Char)) :=
  if l.contains '@' then none
  else
    match l with
    | [] => none
    | c :: rest =>
      if c = '[' then
        match splitFirst ']' rest with
        | none => none
        | some (inside, after) =>
          if inside.isEmpty || inside.contains '[' then none
          else
            match after with
            | [] => some ('[' :: lowerList inside ++ [']'], none)
            | a :: portCs =>
              if a = ':' then
                if portCs.isEmpty then some ('[' :: lowerList inside ++ [']'], none)
                else if canonicalPort portCs then
                  some ('[' :: lowerList inside ++ [']'], some portCs)
                else none
              else none
      else
        match splitFirst ':' (c :: rest) with
        | none =>
          if (c :: rest).contains '[' || (c :: rest).contains ']' then none
          else some (lowerList (c :: rest), none)
        | some (h, portCs) =>
          if h.isEmpty || h.contains '[' || h.contains ']' then none
          else if portCs.isEmpty then some (lowerList h, none)
          else if canonicalPort portCs then some (lowerList h, some portCs)
          else none

/-- Hide a default port, as the WHATWG parser and `protocol` setter do. -/
def elideDefaultPort (scheme : List Char) (port : Option (List Char)) :
    Option (List Char) :=
  if (scheme = "http".data ∧ port = some "80".data) ∨
     (scheme = "https".data ∧ port = some "443".data) then none else port

/-- Split off the fragment at the first `#`. -/
def splitHash (rest3 : List Char) : List Char × Option (List Char) :=
  match splitFirst '#' rest3 with
  | none => (rest3, none)
  | some (b, f) => (b, some f)

/-- Split off the query at the first `?` of the pre-fragment part. -/
def splitQst (beforeHash : List Char) :
    List Char × Option (List (List Char × List Char)) :=
  match splitFirst '?' beforeHash with
  | none => (beforeHash, none)
  | some (p, q) => (p, some (parseParams q))

/-- Model of `new URL(rawUrl)` on the canonical absolute form. -/
def parseUrlChars (l : List Char) : Option URLRec :=
  match splitFirst ':' l with
  | none => none
  | some (schemeCs, rest) =>
    match schemeCs with
    | [] => none
    | c0 :: _ =>
      if ¬ c0.isAlpha then none
      else if ¬ schemeCs.all isSchemeChar then none
      else
        match rest with
        | '/' :: '/' :: rest2 =>
          let scheme := lowerList schemeCs
          let (auth, rest3) := breakWhen (fun c => c == '/' || c == '?' || c == '#') rest2
          match parseAuthority auth with
          | none => none
          | some (host, port) =>
            let port := elideDefaultPort scheme port
            let (beforeHash, frag) := splitHash rest3
            let (pathCs, query) := splitQst beforeHash
            let path := if pathCs.isEmpty then "/".data else pathCs
            some ⟨scheme, host, port, path, query, frag⟩
        | _ => none

/-- Parse a raw URL string (model of `new URL(rawUrl)`). -/
def parseURL (s : String) : Option URLRec := parseUrlChars s.data

/-- Serialize a `URLSearchParams` list back to a query string: `name=value`
pieces joined by `&`. -/
def serializeParams : List (List Char × List Char) → List Char
  | [] => []
  | [p] => p.1 ++ '=' :: p.2
  | p :: q :: rest => p.1 ++ '=' :: p.2 ++ '&' :: serializeParams (q :: rest)

/-- The `:port` piece of a serialized URL. -/
def portPart : Option (List Char) → List Char
  | none => []
  | some p => ':' :: p

/-- The `?query` piece of a serialized URL. -/
def queryPart : Option (List (List Char × List Char)) → List Char
  | none => []
  | some ps => '?' :: serializeParams ps

/-- The `#fragment` piece of a serialized URL. -/
def fragPart : Option (List Char) → List Char
  | none => []
  | some f => '#' :: f

/-- Serialize a URL record (model of `url.toString()`). -/
def serializeChars (u : URLRec) : List Char :=
  u.scheme ++ ':' :: '/' :: '/' :: u.hostname ++ portPart u.port ++
    u.path ++ queryPart u.query ++ fragPart u.fragment

def serializeURL (u : URLRec) : String := String.mk (serializeChars u)

/-! ### URL validation (src/lib/init.js lines 275-312, the `lib/normalize.js`
revision with the SSRF defenses; an older revision with only the protocol
check appears at src/unnamed/part_002 lines 48-55). -/

/-- `BLOCKED_HOSTNAMES` from the source. -/
def BLOCKED_HOSTNAMES : List (List Char) :=
  ["localhost".data, "0.0.0.0".data, "[::1]".data, "[::0]".data]

/-- `BLOCKED_SUFFIXES` from the source. -/
def BLOCKED_SUFFIXES : List (List Char) :=
  [".local".data, ".internal".data, ".localhost".data, ".arpa".data]

/-- Regex `/^127\./` — 127.0.0.0/8 loopback. -/
def pat127 (h : List Char) : Bool := "127.".data.isPrefixOf h

/-- Regex `/^10\./` — 10.0.0.0/8 private. -/
def pat10 (h : List Char) : Bool := "10.".data.isPrefixOf h

/-- Regex `/^172\.(1[6-9]|2\d|3[01])\./` — 172.16.0.0/12 private. -/
def pat172 (h : List Char) : Bool :=
  "172.".data.isPrefixOf h &&
  (List.range' 16 16).any (fun n => (toString n ++ ".").data.isPrefixOf (h.drop 4))

/-- Regex `/^192\.168\./` — 192.168.0.0/16 private. -/
def pat192168 (h : List Char) : Bool := "192.168.".data.isPrefixOf h

/-- Regex `/^169\.254\./` — 169.254.0.0/16 link-local. -/
def pat169254 (h : List Char) : Bool := "169.254.".data.isPrefixOf h

/-- Regex `/^0\./` — 0.0.0.0/8. -/
def pat0 (h : List Char) : Bool := "0.".data.isPrefixOf h

/-- Regex `/^\[?::1\]?$/` — IPv6 loopback. -/
def patV6Loopback (h : List Char) : Bool :=
  h = "::1".data || h = "[::1]".data || h = "[::1".data || h = "::1]".data

/-- Regex `/^\[?fe80:/i` — IPv6 link-local (input is already lower-cased). -/
def patFe80 (h : List Char) : Bool :=
  "fe80:".data.isPrefixOf h || "[fe80:".data.isPrefixOf h

/-- Regex `/^\[?fc/i` — IPv6 unique local. -/
def patFc (h : List Char) : Bool :=
  "fc".data.isPrefixOf h || "[fc".data.isPrefixOf h

/-- Regex `/^\[?fd/i` — IPv6 unique local. -/
def patFd (h : List Char) : Bool :=
  "fd".data.isPrefixOf h || "[fd".data.isPrefixOf h

/-- `PRIVATE_IP_PATTERNS` from the source, as predicates on the
(lower-cased) hostname. -/
def PRIVATE_IP_PATTERNS : List (List Char → Bool) :=
  [pat127, pat10, pat172, pat192168, pat169254, pat0,
   patV6Loopback, patFe80, patFc, patFd]

/-- Regex `/^\d+$/` — purely numeric hostname. -/
def isPureDigits (h : List Char) : Bool := ¬ h.isEmpty && h.all (·.isDigit)

/-- Hex digit on a lower-cased string. -/
def isHexDigitLower (c : Char) : Bool := c.isDigit || ('a' ≤ c && c ≤ 'f')

/-- Regex `/^0x[0-9a-f]+$/i` on the (lower-cased) hostname. -/
def isHexEncoded (h : List Char) : Bool :=
  "0x".data.isPrefixOf h && ¬ (h.drop 2).isEmpty && (h.drop 2).all isHexDigitLower

/-- The scheme and hostname checks of `isValidUrl` on the parsed URL; the JS
local `hostname = url.hostname.toLowerCase()` is written out as
`lowerList url.hostname` at each use. -/
def validCheck (url : URLRec) : Bool :=
  if url.scheme ≠ "http".data ∧ url.scheme ≠ "https".data then false
  else if BLOCKED_HOSTNAMES.contains (lowerList url.hostname) then false
  else if BLOCKED_SUFFIXES.any
    (fun suf => suf.isSuffixOf (lowerList url.hostname)) then false
  else if PRIVATE_IP_PATTERNS.any (fun p => p (lowerList url.hostname)) then false
  else if isPureDigits (lowerList url.hostname) then false
  else if isHexEncoded (lowerList url.hostname) then false
  else true

/-- `isValidUrl` (src/lib/init.js 294-312): protocol must be http/https and the
hostname must clear the SSRF block lists. `url.protocol === 'http:'` is
modelled as `scheme = "http"` (the model's scheme carries no colon); a `new
URL` throw is the parse-failure branch. -/
def isValidUrl (s : String) : Bool :=
  match parseURL s with
  | none => false
  | some url => validCheck url

/-! ### URL normalization (src/unnamed/part_002 lines 6-46, identical copy at
src/lib/init.js 233-273). -/

/-- `TRACKING_PARAMS` from the source. -/
def TRACKING_PARAMS : List (List Char) :=
  ["utm_source".data, "utm_medium".data, "utm_campaign".data, "utm_term".data,
   "utm_content".data, "ref".data, "source".data, "smid".data, "fbclid".data,
   "gclid".data, "mc_cid".data, "mc_eid".data, "ocid".data, "icid".data,
   "ncid".data, "sr_share".data, "_hsenc".data, "_hsmi".data]

/-- `TRACKING_PARAMS.has(key) || key.startsWith('utm_')`. -/
def isTrackingParam (name : List Char) : Bool :=
  TRACKING_PARAMS.contains name || "utm_".data.isPrefixOf name

/-- Delete every tracking parameter from the query. When deletions leave the
list empty, `URLSearchParams` clears the `?` from the serialized URL, which the
model expresses by collapsing `some []` to `none`; a query that was already
empty is left as is. -/
def filterTracking : Option (List (List Char × List Char)) →
    Option (List (List Char × List Char))
  | none => none
  | some ps =>
    let kept := ps.filter (fun p => ¬ isTrackingParam p.1)
    if kept.isEmpty ∧ ¬ ps.isEmpty then none else some kept

/-- `url.hostname = url.hostname.replace(/^www\./, '')`: the regex strips one
leading `www.`; the WHATWG `hostname` setter silently ignores an assignment of
the empty string (host `"www."` is left unchanged). -/
def stripWwwHost (h : List Char) : List Char :=
  let h2 := if "www.".data.isPrefixOf h then h.drop 4 else h
  if h2.isEmpty then h else h2

/-- The record-level steps of `normalizeUrl`: force https (the `protocol`
setter also hides a now-default `443` port), strip one `www.` prefix,
lower-case the host, delete tracking params, drop the fragment. -/
def normalizeRec (u : URLRec) : URLRec :=
  let u1 : URLRec :=
    { u with scheme := "https".data,
             port := if u.port = some "443".data then none else u.port }
  let u2 : URLRec := { u1 with hostname := stripWwwHost u1.hostname }
  let u3 : URLRec := { u2 with hostname := lowerList u2.hostname }
  { u3 with query := filterTracking u3.query, fragment := none }

/-- `normalizeUrl` (src/unnamed/part_002 12-46) on the character model:
parse, rewrite the record, serialize, and strip one trailing slash unless the
path is the root. -/
def normalizeChars (l : List Char) : Option (List Char) :=
  match parseUrlChars l with
  | none => none
  | some url =>
    let u := normalizeRec url
    let result := serializeChars u
    if result.getLast? = some '/' ∧ u.path ≠ "/".data then
      some result.dropLast
    else some result

/-- `normalizeUrl(rawUrl)`: canonical string form, or `null` on parse failure. -/
def normalizeUrl (s : String) : Option String :=
  (normalizeChars s.data).map String.mk

/-- `extractDomain` (src/unnamed/part_002 57-64): host without one leading
`www.`, lower-cased (plain string ops here, not the hostname setter). -/
def extractDomain (s : String) : Option String :=
  match parseURL s with
  | none => none
  | some parsed =>
    some (String.mk (lowerList
      (if "www.".data.isPrefixOf parsed.hostname then parsed.hostname.drop 4
       else parsed.hostname)))

/-- Condition under which the single trailing-slash trim of `normalizeUrl`
cannot expose a second trimmable `/` on re-normalization: with no query, a
trailing `//` on the path is allowed only as the whole path `//` (whose trim
leaves the root path); with a query, the last parameter value must not end in
`//`. -/
def noDoubleTrim (n : URLRec) : Prop :=
  match n.query with
  | none => n.path.getLast? = some '/' → n.path.dropLast.getLast? = some '/' →
      n.path.dropLast = "/".data
  | some ps => ∀ init nm v, ps = init ++ [(nm, v)] →
      v.getLast? = some '/' → v.dropLast.getLast? ≠ some '/'

/-! ### The on-disk queue (src/unnamed/part_002 lines 66-128).

JSON values are modelled explicitly; a queue file is either missing (read
throws), syntactically corrupt (`JSON.parse` throws), or holds a JSON value. -/

/-- A JSON value, as produced by `JSON.parse`. -/
inductive JVal where
  | jnull : JVal
  | jbool : Bool → JVal
  | jnum : Int → JVal
  | jstr : String → JVal
  | jarr : List JVal → JVal
  | jobj : List (String × JVal) → JVal

/-- Property lookup on a parsed JSON object: with duplicate keys,
`JSON.parse` keeps the last occurrence. -/
def jlookup : List (String × JVal) → String → Option JVal
  | [], _ => none
  | (k, v) :: rest, key =>
    match jlookup rest key with
    | some r => some r
    | none => if k = key then some v else none

/-- The state of the queue file on disk. -/
inductive QueueFile where
  | missing : QueueFile
  | corrupt : QueueFile
  | jsonContent : JVal → QueueFile

/-- `item && typeof item === 'object' && typeof item.url === 'string'`:
in JS only a (non-null) object passes the first two tests and only an object
can carry a string `url` property. -/
def isQueueItem (v : JVal) : Bool :=
  match v with
  | .jobj fields =>
    match jlookup fields "url" with
    | some (.jstr _) => true
    | _ => false
  | _ => false

/-- `readQueue` (src/unnamed/part_002 79-91): missing or corrupt file and
non-array JSON all give `[]`; array entries that are not objects with a
string `url` are dropped. -/
def readQueue (f : QueueFile) : List JVal :=
  match f with
  | .missing => []
  | .corrupt => []
  | .jsonContent v =>
    match v with
    | .jarr items => items.filter isQueueItem
    | _ => []

/-- The `url` property of a queue item (a string on everything `readQueue`
returns). -/
def itemUrl (v : JVal) : Option String :=
  match v with
  | .jobj fields =>
    match jlookup fields "url" with
    | some (.jstr s) => some s
    | _ => none
  | _ => none

/-- `item.url` where the item came from `readQueue` (always a string there). -/
def itemUrlD (v : JVal) : String := (itemUrl v).getD ""

/-- `queuePath` (src/unnamed/part_002 75-77): `join(vaultPath, 'Articles', '.queue.json')`. -/
def queuePath (vaultPath : String) : String := vaultPath ++ "/Articles/.queue.json"

/-- Filesystem operations issued by the queue writer. -/
inductive FsOp where
  | write : String → String → FsOp
  | rename : String → String → FsOp
  | unlink : String → FsOp
deriving DecidableEq

/-- A flat filesystem: path to file contents. -/
def Fs : Type := String → Option String

/-- Effect of one operation on the filesystem. -/
def applyOp (fs : Fs) : FsOp → Fs
  | .write p d => fun q => if q = p then some d else fs q
  | .rename src dst => fun q =>
      if q = dst then fs src else if q = src then none else fs q
  | .unlink p => fun q => if q = p then none else fs q

/-- Effect of a sequence of operations. -/
def applyOps (fs : Fs) (ops : List FsOp) : Fs := ops.foldl applyOp fs

/-- Serialize a JSON value (model of `JSON.stringify`; the pretty-printing
whitespace of `JSON.stringify(x, null, 2)` is abstracted away). -/
def escapeJsonChar (c : Char) : List Char :=
  if c = '"' ∨ c = '\\' then ['\\', c]
  else if c = '\n' then ['\\', 'n']
  else if c = '\t' then ['\\', 't']
  else if c = '\r' then ['\\', 'r']
  else [c]

mutual

def stringifyJson : JVal → String
  | .jnull => "null"
  | .jbool true => "true"
  | .jbool false => "false"
  | .jnum n => toString n
  | .jstr s => String.mk ('"' :: (s.data.flatMap escapeJsonChar) ++ ['"'])
  | .jarr xs => "[" ++ stringifyArr xs ++ "]"
  | .jobj fields => "\x7b" ++ stringifyObj fields ++ "\x7d"

def stringifyArr : List JVal → String
  | [] => ""
  | [x] => stringifyJson x
  | x :: y :: rest => stringifyJson x ++ "," ++ stringifyArr (y :: rest)

def stringifyObj : List (String × JVal) → String
  | [] => ""
  | [(k, v)] => stringifyJson (.jstr k) ++ ":" ++ stringifyJson v
  | (k, v) :: p :: rest =>
    stringifyJson (.jstr k) ++ ":" ++ stringifyJson v ++ "," ++ stringifyObj (p :: rest)

end

/-- `atomicWrite` (src/unnamed/part_002 124-128): write a uniquely named
temp file next to the target, then rename over it. `uuid8` stands for
`randomUUID().slice(0, 8)`. -/
def atomicWrite (filepath : String) (data : String) (uuid8 : String) : List FsOp :=
  [.write (filepath ++ "." ++ uuid8 ++ ".tmp") data,
   .rename (filepath ++ "." ++ uuid8 ++ ".tmp") filepath]

/-- `addToQueue` (src/unnamed/part_002 93-105): re-read the queue, reject an
exact raw-string duplicate, else append `{url, added}` and persist atomically.
Returns the `added` flag and the filesystem operations performed. -/
def addToQueue (vaultPath : String) (qf : QueueFile) (url : String)
    (now : String) (uuid8 : String) : Bool × List FsOp :=
  let queue := readQueue qf
  if queue.any (fun item => itemUrlD item = url) then (false, [])
  else
    let queue2 := queue ++ [JVal.jobj [("url", .jstr url), ("added", .jstr now)]]
    (true, atomicWrite (queuePath vaultPath) (stringifyJson (.jarr queue2)) uuid8)

/-- `writeQueue` (src/unnamed/part_002 107-113): an empty list deletes the
file (via `clearQueue`), otherwise persist atomically. -/
def writeQueue (vaultPath : String) (items : List JVal) (uuid8 : String) :
    List FsOp :=
  if items.length = 0 then [.unlink (queuePath vaultPath)]
  else atomicWrite (queuePath vaultPath) (stringifyJson (.jarr items)) uuid8

/-- Directory of a path: everything before the last `/`. -/
def dirnameChars (l : List Char) : List Char :=
  match splitFirst '/' l.reverse with
  | none => []
  | some (_, rest) => rest.reverse

def dirname (p : String) : String := String.mk (dirnameChars p.data)

/-! ### Duplicate detection (src/unnamed/part_003 lines 8-44). -/

/-- A file in the vault's `Articles` directory; `content = none` models an
unreadable file (`readFile` throws). -/
structure VaultFile where
  name : String
  content : Option String

/-- The frontmatter regex (anchored `---` newline, a non-greedy body capture,
then newline `---`): the document must start with `---\n`; the header is
everything up to the first following `\n---` (non-greedy match). Returns the
header block, or `none` when the regex fails. -/
def fmBlock (content : String) : Option (List Char) :=
  match content.data with
  | '-' :: '-' :: '-' :: '\n' :: rest =>
    match splitSub "\n---".data rest with
    | none => none
    | some (fm, _) => some fm
  | _ => none

/-- First match of `/^fieldName:\s*(.+)$/m` inside the header, already
`trim()`ed: the first line starting with `fieldName:` and having at least one
further character; comparison and storage always go through `trim`, which
makes the `\s*(.+)` capture equivalent to trimming the rest of the line. -/
def firstFieldValue (fieldName : String) (fm : List Char) : Option (List Char) :=
  (splitAll '\n' fm).findSome? (fun line =>
    if (fieldName.data ++ [':']).isPrefixOf line ∧
       ¬ (line.drop (fieldName.length + 1)).isEmpty then
      some (trimChars (line.drop (fieldName.length + 1)))
    else none)

/-- `.replace(/^["']|["']$/g, '')` on the extracted title. -/
def stripQuotes (l : List Char) : List Char :=
  let l1 := match l with
    | c :: rest => if c = '"' ∨ c = '\'' then rest else l
    | [] => []
  match l1.getLast? with
  | some c => if c = '"' ∨ c = '\'' then l1.dropLast else l1
  | none => l1

/-- Does this file's header carry `url: <normalizedUrl>` (exact string
equality after `trim`)? -/
def fileMatches (normalizedUrl : String) (content : String) : Bool :=
  match fmBlock content with
  | none => false
  | some fm =>
    match firstFieldValue "url" fm with
    | none => false
    | some v => v = normalizedUrl.data

/-- The `title` reported for a matching file. -/
def titleOf (content : String) : Option String :=
  match fmBlock content with
  | none => none
  | some fm => (firstFieldValue "title" fm).map (fun t => String.mk (stripQuotes t))

/-- Result of `findDuplicate`. -/
structure DupResult where
  file : String
  title : Option String
deriving DecidableEq

/-- The scan loop of `findDuplicate` over the `.md` files, in directory
order: unreadable files are skipped, the first header whose `url:` field
equals `normalizedUrl` wins. -/
def findDuplicateGo (normalizedUrl : String) : List VaultFile → Option DupResult
  | [] => none
  | f :: rest =>
    match f.content with
    | none => findDuplicateGo normalizedUrl rest
    | some c =>
      if fileMatches normalizedUrl c then some ⟨f.name, titleOf c⟩
      else findDuplicateGo normalizedUrl rest

/-- `findDuplicate` (src/unnamed/part_003 8-44): `dir = none` models a
missing `Articles` directory (`readdir` throws ⇒ no duplicates). -/
def findDuplicate (normalizedUrl : String) (dir : Option (List VaultFile)) :
    Option DupResult :=
  match dir with
  | none => none
  | some files =>
    findDuplicateGo normalizedUrl (files.filter (fun f => ".md".data.isSuffixOf f.name.data))

/-! ### Frontmatter construction (src/lib/frontmatter.js lines 8-36).

The YAML rendering itself is an out-of-scope collaborator (`yaml.stringify`);
the model captures the field record that is rendered. -/

/-- Input fields of `buildFrontmatter`; `none` models a missing/undefined
argument and JS falsiness of `""` is handled at use sites. -/
structure FmInput where
  url : String
  title : Option String
  author : Option String
  source : Option String
  published : Option String
  tags : Option (List String)
  status : Option String
  warning : Option String

/-- The metadata header finally rendered into a document. -/
structure FmDoc where
  url : String
  saved : String
  title : String
  source : String
  author : Option String
  published : Option String
  tags : List String
  status : String
  warning : Option String
deriving DecidableEq

/-- JS `x || d` for an optional string: `undefined` and `""` are falsy. -/
def jsOrDefault (v : Option String) (d : String) : String :=
  match v with
  | some t => if t = "" then d else t
  | none => d

/-- JS `if (x) fm.f = x`: the field is omitted when falsy. -/
def jsOptField (v : Option String) : Option String :=
  match v with
  | some t => if t = "" then none else some t
  | none => none

/-- `buildFrontmatter` (src/lib/frontmatter.js 8-36): required fields with
defaults, optional fields dropped when falsy, and a non-empty tags list with
the `untagged` sentinel. -/
def buildFrontmatter (inp : FmInput) (today : String) : FmDoc :=
  { url := inp.url
    saved := today
    title := jsOrDefault inp.title "Untitled"
    source := jsOrDefault inp.source "Unknown"
    author := jsOptField inp.author
    published := jsOptField inp.published
    tags := match inp.tags with
      | some ts => if ts.length > 0 then ts else ["untagged"]
      | none => ["untagged"]
    status := jsOrDefault inp.status "complete"
    warning := jsOptField inp.warning }

/-! ### The save orchestrator (src/lib/slugify.js lines 136-333; that file
holds the CLI entry point). External collaborators (fetcher, metadata
extractor, keyword extractor) are parameters, per their fixed contracts. -/

/-- Relevant CLI flags. -/
structure CliValues where
  tags : Option String
  dryRun : Bool

/-- `fetchArticle` metadata block. -/
structure Meta where
  ogTitle : Option String
  ogAuthor : Option String
  ogPublished : Option String
  ogSiteName : Option String
  h1 : Option String
  titleTag : Option String
  timeDatetime : Option String

/-- Extracted readable article. -/
structure Article where
  title : Option String
  byline : Option String
  content : String

/-- Outcome of the `fetchArticle` collaborator as observed by `saveUrl`:
a thrown timeout/abort, a thrown network error, a non-success result
(optionally partial with metadata), or a success. -/
inductive FetchOutcome where
  | fetchThrow : Bool → String → FetchOutcome
  | fetchFail : String → Bool → Option Meta → FetchOutcome
  | fetchOk : Article → Meta → FetchOutcome

/-- Output of the `extractMetadata` collaborator. -/
structure Metadata where
  title : Option String
  author : Option String
  source : Option String
  published : Option String

/-- The result record of one save attempt, as the CLI consumes it:
`failure` and `duplicateFound` carry `success: false`, `saved` carries
`success: true` (with its rendered header and the dry-run marker). -/
inductive SaveResult where
  | failure : String → SaveResult
  | duplicateFound : String → Option String → SaveResult
  | saved : FmDoc → Bool → SaveResult
deriving DecidableEq

/-- `result.success` of the JS result object. -/
def resultSuccess : SaveResult → Bool
  | .failure _ => false
  | .duplicateFound _ _ => false
  | .saved _ _ => true

/-- `result.duplicate` of the JS result object (absent fields are falsy). -/
def resultDuplicate : SaveResult → Bool
  | .duplicateFound _ _ => true
  | _ => false

/-- `values.tags.split(',').map(t => t.trim().toLowerCase())`. -/
def splitTagsFlag (t : String) : List String :=
  (splitAll ',' t.data).map (fun p => String.mk (lowerList (trimChars p)))

/-- Tag selection on the complete branch (src/lib/slugify.js 253-256):
the `--tags` override when the flag is a truthy string, else the extracted
keywords. -/
def completeTags (tagsFlag : Option String) (keywords : List String) :
    List String :=
  match tagsFlag with
  | some t => if t = "" then keywords else splitTagsFlag t
  | none => keywords

/-- Tag selection on the partial branch (src/lib/slugify.js 300-302):
the `--tags` override when truthy, else the `untagged` sentinel — keywords
are never consulted. -/
def partialTags (tagsFlag : Option String) : List String :=
  match tagsFlag with
  | some t => if t = "" then ["untagged"] else splitTagsFlag t
  | none => ["untagged"]

/-- `savePartial` (src/lib/slugify.js 296-333), up to the header fields it
persists; file writing and filename generation are not modelled. -/
def savePartialDoc (values : CliValues) (today : String)
    (normalizedUrl : String) (domain : Option String) (meta : Meta) :
    SaveResult :=
  let title := meta.ogTitle.filter (· ≠ "") <|> meta.titleTag.filter (· ≠ "") <|>
    meta.h1.filter (· ≠ "") <|> domain
  let tags := partialTags values.tags
  let fm := buildFrontmatter
    { url := normalizedUrl, title := title, author := none, source := domain,
      published := none, tags := some tags, status := some "partial",
      warning := some "Content may be incomplete due to paywall or access restriction" }
    today
  .saved fm values.dryRun

/-- `saveUrl` (src/lib/slugify.js 204-294): validate, normalize, check
duplicates, fetch, then build either the partial or the complete document.
`extractKw` and `extractMeta` are the collaborator functions, `dir` the
current `Articles` directory listing, `fetch` the fetch outcome observed for
this URL. -/
def saveUrl (values : CliValues) (today : String)
    (extractKw : String → List String)
    (extractMeta : Article → Meta → String → Metadata)
    (dir : Option (List VaultFile)) (fetch : FetchOutcome)
    (url : String) : SaveResult :=
  if ¬ isValidUrl url then .failure "Invalid URL format"
  else
    match normalizeUrl url with
    | none => .failure "Could not normalize URL"
    | some normalizedUrl =>
      let domain := extractDomain normalizedUrl
      match findDuplicate normalizedUrl dir with
      | some existing =>
        .duplicateFound ("Articles/" ++ existing.file) existing.title
      | none =>
        match fetch with
        | .fetchThrow true _ => .failure "Request timed out"
        | .fetchThrow false msg => .failure ("Network error: " ++ msg)
        | .fetchFail err partialFlag metaOpt =>
          match partialFlag, metaOpt with
          | true, some meta => savePartialDoc values today normalizedUrl domain meta
          | _, _ => .failure err
        | .fetchOk article meta =>
          let metadata := extractMeta article meta normalizedUrl
          let title := metadata.title.filter (· ≠ "") <|> domain
          let keywords := extractKw article.content
          let tags := completeTags values.tags keywords
          let fm := buildFrontmatter
            { url := normalizedUrl, title := title, author := metadata.author,
              source := metadata.source, published := metadata.published,
              tags := some tags, status := some "complete", warning := none }
            today
          .saved fm values.dryRun

/-- `saveArticle` exit code (src/lib/slugify.js 136-145):
`process.exit(result.success ? 0 : 1)`. -/
def saveArticleExitCode (r : SaveResult) : Nat :=
  if resultSuccess r then 0 else 1

/-- Per-result summary used by `processQueue`. -/
structure SaveOutcome where
  success : Bool
  duplicate : Bool
deriving DecidableEq

/-- The view of a full save result that `processQueue` branches on. -/
def outcomeOf (r : SaveResult) : SaveOutcome :=
  ⟨resultSuccess r, resultDuplicate r⟩

/-- The sequential loop of `processQueue` (src/lib/slugify.js 175-183):
items are processed one at a time in stored order; an item is retained
exactly when its result is neither a success nor a duplicate. -/
def processQueueLoop (save : String → SaveOutcome) :
    List JVal → List SaveOutcome × List JVal
  | [] => ([], [])
  | item :: rest =>
    let r := save (itemUrlD item)
    let (results, failed) := processQueueLoop save rest
    (r :: results, if !r.success && !r.duplicate then item :: failed else failed)

/-- `processQueue` (src/lib/slugify.js 167-200): read the queue, run the
loop, and persist exactly the failed items (an empty queue writes nothing).
Returns the per-item results, the retained items, and the filesystem
operations performed. -/
def processQueue (save : String → SaveOutcome) (vaultPath : String)
    (qf : QueueFile) (uuid8 : String) :
    List SaveOutcome × List JVal × List FsOp :=
  let queue := readQueue qf
  if queue.isEmpty then ([], [], [])
  else
    let (results, failedItems) := processQueueLoop save queue
    (results, failedItems, writeQueue vaultPath failedItems uuid8)

/-! ### Basic facts about the helper functions -/

theorem char_ofNat_toNat {n : Nat} (h1 : 97 ≤ n) (h2 : n ≤ 122) :
    (Char.ofNat n).toNat = n := by
  have hv : n.isValidChar := Or.inl (by omega)
  rw [Char.ofNat, dif_pos hv]
  simp [Char.ofNatAux, Char.toNat, UInt32.toNat, BitVec.toNat_ofNatLt]

theorem char_toNat_inj {a b : Char} (h : a.toNat = b.toNat) : a = b :=
  Char.eq_of_val_eq (UInt32.toNat.inj h)

theorem lowerChar_upper {c : Char} (h : 'A' ≤ c ∧ c ≤ 'Z') :
    (lowerChar c).toNat = c.toNat + 32 := by
  have h1 : 65 ≤ c.toNat := h.1
  have h2 : c.toNat ≤ 90 := h.2
  rw [lowerChar, if_pos h]
  exact char_ofNat_toNat (by omega) (by omega)

theorem lowerChar_not_upper {c : Char} (h : ¬ ('A' ≤ c ∧ c ≤ 'Z')) :
    lowerChar c = c := by rw [lowerChar, if_neg h]

theorem lowerChar_idem (c : Char) : lowerChar (lowerChar c) = lowerChar c := by
  by_cases h : 'A' ≤ c ∧ c ≤ 'Z'
  · have hl := lowerChar_upper h
    have h1 : 65 ≤ c.toNat := h.1
    have h2 : c.toNat ≤ 90 := h.2
    apply lowerChar_not_upper
    intro h'
    have h3 : (lowerChar c).toNat ≤ 90 := h'.2
    omega
  · rw [lowerChar_not_upper h, lowerChar_not_upper h]

theorem lowerList_idem (l : List Char) : lowerList (lowerList l) = lowerList l := by
  simp only [lowerList, List.map_map]
  exact List.map_congr_left (fun c _ => lowerChar_idem c)

theorem lowerChar_eq_special {c c' : Char}
    (hc' : c'.toNat < 65 ∨ (90 < c'.toNat ∧ c'.toNat < 97)) :
    lowerChar c = c' ↔ c = c' := by
  by_cases h : 'A' ≤ c ∧ c ≤ 'Z'
  · have hl := lowerChar_upper h
    have h1 : 65 ≤ c.toNat := h.1
    have h2 : c.toNat ≤ 90 := h.2
    constructor
    · intro he; exfalso; rw [he] at hl; omega
    · intro he; exfalso
      have : c.toNat = c'.toNat := by rw [he]
      omega
  · rw [lowerChar_not_upper h]

theorem lowerList_not_mem_special {c' : Char}
    (hc' : c'.toNat < 65 ∨ (90 < c'.toNat ∧ c'.toNat < 97)) {l : List Char}
    (h : c' ∉ l) : c' ∉ lowerList l := by
  intro hmem
  rw [lowerList, List.mem_map] at hmem
  obtain ⟨c, hc, he⟩ := hmem
  exact h (((lowerChar_eq_special hc').mp he) ▸ hc)

theorem splitFirst_eq_some {c : Char} {l a b : List Char}
    (h : splitFirst c l = some (a, b)) : l = a ++ c :: b ∧ c ∉ a := by
  induction l generalizing a b with
  | nil => simp [splitFirst] at h
  | cons x xs ih =>
    rw [splitFirst] at h
    by_cases hx : x = c
    · rw [if_pos hx] at h
      simp only [Option.some.injEq, Prod.mk.injEq] at h
      obtain ⟨rfl, rfl⟩ := h
      subst hx
      simp
    · rw [if_neg hx] at h
      cases he : splitFirst c xs with
      | none => rw [he] at h; simp at h
      | some p =>
        rw [he] at h
        simp only [Option.map, Option.some.injEq, Prod.mk.injEq] at h
        obtain ⟨rfl, rfl⟩ := h
        obtain ⟨hl, hm⟩ := ih (by rw [he])
        constructor
        · rw [hl]; rfl
        · simp [hm, Ne.symm hx]

theorem splitFirst_eq_none {c : Char} {l : List Char} (h : c ∉ l) :
    splitFirst c l = none := by
  induction l with
  | nil => rfl
  | cons x xs ih =>
    have hcx : c ≠ x ∧ c ∉ xs := by simpa using h
    rw [splitFirst, if_neg (Ne.symm hcx.1), ih hcx.2]
    rfl

theorem splitFirst_not_mem {c : Char} {l : List Char}
    (h : splitFirst c l = none) : c ∉ l := by
  induction l with
  | nil => simp
  | cons x xs ih =>
    rw [splitFirst] at h
    by_cases hx : x = c
    · rw [if_pos hx] at h; simp at h
    · rw [if_neg hx] at h
      cases he : splitFirst c xs with
      | none => simp [Ne.symm hx, ih he]
      | some p => rw [he] at h; simp at h

theorem splitFirst_append_cons {c : Char} {a : List Char} (b : List Char)
    (h : c ∉ a) : splitFirst c (a ++ c :: b) = some (a, b) := by
  induction a with
  | nil => simp [splitFirst]
  | cons x xs ih =>
    have hx : x ≠ c := by intro he; exact h (he ▸ List.mem_cons_self x xs)
    rw [List.cons_append, splitFirst, if_neg hx,
      ih (fun hm => h (List.mem_cons_of_mem x hm))]
    rfl

theorem splitFirst_append_not_mem {c : Char} {a : List Char} (b : List Char)
    (h : c ∉ a) :
    splitFirst c (a ++ b) = (splitFirst c b).map (fun r => (a ++ r.1, r.2)) := by
  induction a with
  | nil =>
    rw [List.nil_append]
    cases splitFirst c b with
    | none => rfl
    | some r => simp
  | cons x xs ih =>
    have hx : x ≠ c := by intro he; exact h (he ▸ List.mem_cons_self x xs)
    rw [List.cons_append, splitFirst, if_neg hx,
      ih (fun hm => h (List.mem_cons_of_mem x hm))]
    cases splitFirst c b <;> rfl

theorem breakWhen_append_cons {p : Char → Bool} {a : List Char}
    (h : ∀ x ∈ a, p x = false) {y : Char} (hy : p y = true) (b : List Char) :
    breakWhen p (a ++ y :: b) = (a, y :: b) := by
  induction a with
  | nil => simp [breakWhen, hy]
  | cons x xs ih =>
    rw [List.cons_append, breakWhen]
    rw [h x (List.mem_cons_self x xs)]
    simp only [Bool.false_eq_true, if_false]
    rw [ih (fun z hz => h z (List.mem_cons_of_mem x hz))]

theorem breakWhen_spec (p : Char → Bool) (l : List Char) :
    l = (breakWhen p l).1 ++ (breakWhen p l).2 ∧
    (∀ x ∈ (breakWhen p l).1, p x = false) ∧
    (∀ y t, (breakWhen p l).2 = y :: t → p y = true) := by
  induction l with
  | nil => simp [breakWhen]
  | cons x xs ih =>
    rw [breakWhen]
    by_cases hx : p x = true
    · rw [if_pos hx]
      refine ⟨rfl, by simp, ?_⟩
      intro y t he
      simp only [List.cons.injEq] at he
      exact he.1 ▸ hx
    · rw [if_neg hx]
      obtain ⟨h1, h2, h3⟩ := ih
      refine ⟨?_, ?_, h3⟩
      · simpa using h1
      · intro z hz
        rcases List.mem_cons.mp hz with rfl | hz'
        · exact Bool.not_eq_true _ ▸ (by simpa using hx)
        · exact h2 z hz'

theorem splitAll_cons_eq {c x : Char} {xs : List Char} {hd : List Char}
    {t : List (List Char)} (he : splitAll c xs = hd :: t) :
    splitAll c (x :: xs) = if x = c then [] :: hd :: t else (x :: hd) :: t := by
  rw [splitAll, he]

theorem splitAll_ne_nil (c : Char) (l : List Char) : splitAll c l ≠ [] := by
  cases l with
  | nil => simp [splitAll]
  | cons x xs =>
    cases he : splitAll c xs with
    | nil => exact absurd he (splitAll_ne_nil c xs)
    | cons hd t =>
      rw [splitAll_cons_eq he]
      by_cases hx : x = c
      · simp [hx]
      · simp [hx]

theorem splitAll_no_sep {c : Char} {l : List Char} (h : c ∉ l) :
    splitAll c l = [l] := by
  induction l with
  | nil => rfl
  | cons x xs ih =>
    have h2 : c ∉ xs := fun hm => h (List.mem_cons_of_mem x hm)
    have hx : x ≠ c := fun he => h (he ▸ List.mem_cons_self x xs)
    rw [splitAll_cons_eq (ih h2), if_neg hx]

theorem splitAll_append_cons {c : Char} {a : List Char} (h : c ∉ a)
    (b : List Char) : splitAll c (a ++ c :: b) = a :: splitAll c b := by
  induction a with
  | nil =>
    rw [List.nil_append]
    cases he : splitAll c b with
    | nil => exact absurd he (splitAll_ne_nil c b)
    | cons hd t => rw [splitAll_cons_eq he, if_pos rfl]
  | cons x xs ih =>
    have h2 : c ∉ xs := fun hm => h (List.mem_cons_of_mem x hm)
    have hx : x ≠ c := fun he => h (he ▸ List.mem_cons_self x xs)
    have hih := ih h2
    rw [List.cons_append, splitAll_cons_eq hih, if_neg hx]

theorem splitAll_mem_not_sep {c : Char} {l piece : List Char}
    (h : piece ∈ splitAll c l) : c ∉ piece := by
  induction l generalizing piece with
  | nil =>
    rw [splitAll] at h
    simp only [List.mem_singleton] at h
    subst h; simp
  | cons x xs ih =>
    cases he : splitAll c xs with
    | nil => exact absurd he (splitAll_ne_nil c xs)
    | cons hd t =>
      rw [splitAll_cons_eq he] at h
      by_cases hx : x = c
      · rw [if_pos hx] at h
        rcases List.mem_cons.mp h with rfl | h'
        · simp
        · exact ih (he ▸ h')
      · rw [if_neg hx] at h
        rcases List.mem_cons.mp h with rfl | h'
        · intro hm
          rcases List.mem_cons.mp hm with rfl | hm'
          · exact hx rfl
          · exact ih (he ▸ List.mem_cons_self hd t) hm'
        · exact ih (he ▸ List.mem_cons_of_mem hd h')

theorem splitAll_mem_subset {c : Char} {l piece : List Char}
    (h : piece ∈ splitAll c l) : ∀ x ∈ piece, x ∈ l := by
  induction l generalizing piece with
  | nil =>
    rw [splitAll] at h
    simp only [List.mem_singleton] at h
    subst h; simp
  | cons y xs ih =>
    cases he : splitAll c xs with
    | nil => exact absurd he (splitAll_ne_nil c xs)
    | cons hd t =>
      rw [splitAll_cons_eq he] at h
      intro x hx
      by_cases hy : y = c
      · rw [if_pos hy] at h
        rcases List.mem_cons.mp h with rfl | h'
        · simp at hx
        · exact List.mem_cons_of_mem y (ih (he ▸ h') x hx)
      · rw [if_neg hy] at h
        rcases List.mem_cons.mp h with rfl | h'
        · rcases List.mem_cons.mp hx with rfl | hx'
          · exact List.mem_cons_self x xs
          · exact List.mem_cons_of_mem y
              (ih (he ▸ List.mem_cons_self hd t) x hx')
        · exact List.mem_cons_of_mem y (ih (he ▸ List.mem_cons_of_mem hd h') x hx)


/-! ### Queue claims -/

theorem isQueueItem_spec {e : JVal} (h : isQueueItem e = true) :
    ∃ fields s, e = JVal.jobj fields ∧ jlookup fields "url" = some (JVal.jstr s) := by
  cases e with
  | jnull => simp [isQueueItem] at h
  | jbool b => simp [isQueueItem] at h
  | jnum n => simp [isQueueItem] at h
  | jstr s => simp [isQueueItem] at h
  | jarr xs => simp [isQueueItem] at h
  | jobj fields =>
    refine ⟨fields, ?_⟩
    simp only [isQueueItem] at h
    cases hl : jlookup fields "url" with
    | none => rw [hl] at h; simp at h
    | some v =>
      rw [hl] at h
      cases v with
      | jstr s => exact ⟨s, rfl, rfl⟩
      | jnull => simp at h
      | jbool b => simp at h
      | jnum n => simp at h
      | jarr xs => simp at h
      | jobj fs => simp at h

/-- C7: reading the queue from a vault whose queue file is missing, or whose
queue file content is not valid JSON, returns an empty list; `readQueue` is a
total function on these states (it never throws). -/
theorem c7_readQueue_missing_or_corrupt :
    readQueue QueueFile.missing = [] ∧ readQueue QueueFile.corrupt = [] :=
  ⟨rfl, rfl⟩

/-- C10: every item `readQueue` returns is a JSON object carrying a
string-valued `url` field; the persisted array is filtered down to exactly
such entries; a queue file whose JSON is not an array yields `[]`. -/
theorem c10_readQueue_items_wellformed :
    (∀ f e, e ∈ readQueue f →
      ∃ fields s, e = JVal.jobj fields ∧ jlookup fields "url" = some (JVal.jstr s))
  ∧ (∀ items, readQueue (QueueFile.jsonContent (JVal.jarr items)) =
      items.filter isQueueItem)
  ∧ (∀ v, (∀ items, v ≠ JVal.jarr items) →
      readQueue (QueueFile.jsonContent v) = []) := by
  refine ⟨?_, fun items => rfl, ?_⟩
  · intro f e he
    cases f with
    | missing => simp [readQueue] at he
    | corrupt => simp [readQueue] at he
    | jsonContent v =>
      cases v with
      | jarr items => exact isQueueItem_spec (List.mem_filter.mp he).2
      | jnull => simp [readQueue] at he
      | jbool b => simp [readQueue] at he
      | jnum n => simp [readQueue] at he
      | jstr s => simp [readQueue] at he
      | jobj fs => simp [readQueue] at he
  · intro v hv
    cases v with
    | jarr items => exact absurd rfl (hv items)
    | jnull => rfl
    | jbool b => rfl
    | jnum n => rfl
    | jstr s => rfl
    | jobj fs => rfl

theorem c10_witness :
    ∃ fields s, JVal.jobj [("url", JVal.jstr "https://x/")] = JVal.jobj fields ∧
      jlookup fields "url" = some (JVal.jstr s) :=
  c10_readQueue_items_wellformed.1
    (QueueFile.jsonContent (JVal.jarr [JVal.jobj [("url", JVal.jstr "https://x/")]]))
    (JVal.jobj [("url", JVal.jstr "https://x/")])
    (List.mem_singleton.mpr rfl)

/-! ### Atomic persistence (C3) -/

theorem tmp_name_ne (path uuid8 : String) :
    path ++ "." ++ uuid8 ++ ".tmp" ≠ path := by
  intro h
  have hlen := congrArg (fun t : String => t.data.length) h
  simp only [String.data_append, List.length_append, List.length_cons,
    List.length_nil] at hlen
  omega

theorem tmp_name_inj {path uuid8 uuid8' : String}
    (h : path ++ "." ++ uuid8 ++ ".tmp" = path ++ "." ++ uuid8' ++ ".tmp") :
    uuid8 = uuid8' := by
  have hd := congrArg String.data h
  simp only [String.data_append, List.append_assoc] at hd
  have h2 := List.append_cancel_left hd
  have h3 := List.append_cancel_left h2
  have h4 := List.append_cancel_right h3
  cases uuid8; cases uuid8'
  exact congrArg String.mk h4

theorem dirname_append_no_slash {p sfx : String}
    (h : ∀ c ∈ sfx.data, c ≠ '/') : dirname (p ++ sfx) = dirname p := by
  have hd : (p ++ sfx).data = p.data ++ sfx.data := String.data_append p sfx
  have hrev : (p.data ++ sfx.data).reverse = sfx.data.reverse ++ p.data.reverse := by
    rw [List.reverse_append]
  have hns : '/' ∉ sfx.data.reverse := by
    intro hm
    exact h '/' (List.mem_reverse.mp hm) rfl
  rw [dirname, dirname, dirnameChars, dirnameChars, hd, hrev,
    splitFirst_append_not_mem _ hns]
  cases splitFirst '/' p.data.reverse with
  | none => rfl
  | some r => rfl

/-- C3: every queue persist operation — `addToQueue` when it persists, and
`writeQueue` on a non-empty list — consists exactly of writing the serialized
queue to a temp file whose name extends the target path with a unique
`.<uuid>.tmp` suffix in the same directory, followed by a rename onto the
target; before the rename the target path still holds its old contents, and
after it the complete new contents — a reader never observes a
partially-written queue file. -/
theorem c3_atomic_queue_persistence :
    (∀ path data uuid8, atomicWrite path data uuid8 =
      [FsOp.write (path ++ "." ++ uuid8 ++ ".tmp") data,
       FsOp.rename (path ++ "." ++ uuid8 ++ ".tmp") path])
  ∧ (∀ path uuid8, (path ++ "." ++ uuid8 ++ ".tmp" : String) ≠ path)
  ∧ (∀ path uuid8 uuid8', (path ++ "." ++ uuid8 ++ ".tmp" : String) =
      path ++ "." ++ uuid8' ++ ".tmp" → uuid8 = uuid8')
  ∧ (∀ path uuid8, (∀ c ∈ (("." ++ uuid8 ++ ".tmp" : String)).data, c ≠ '/') →
      dirname (path ++ ("." ++ uuid8 ++ ".tmp")) = dirname path)
  ∧ (∀ fs path data uuid8 k, k < 2 →
      applyOps fs ((atomicWrite path data uuid8).take k) path = fs path)
  ∧ (∀ fs path data uuid8,
      applyOps fs (atomicWrite path data uuid8) path = some data)
  ∧ (∀ vaultPath qf url now uuid8,
      (addToQueue vaultPath qf url now uuid8).2 = [] ∨
      ∃ d, (addToQueue vaultPath qf url now uuid8).2 =
        atomicWrite (queuePath vaultPath) d uuid8)
  ∧ (∀ vaultPath items uuid8, items ≠ [] →
      writeQueue vaultPath items uuid8 =
        atomicWrite (queuePath vaultPath) (stringifyJson (JVal.jarr items)) uuid8) := by
  refine ⟨fun _ _ _ => rfl, fun path uuid8 => tmp_name_ne path uuid8,
    fun _ _ _ h => tmp_name_inj h, fun path uuid8 h => dirname_append_no_slash h,
    ?_, ?_, ?_, ?_⟩
  · intro fs path data uuid8 k hk
    interval_cases k
    · rfl
    · have hne : path ≠ path ++ "." ++ uuid8 ++ ".tmp" :=
        fun h => tmp_name_ne path uuid8 h.symm
      simp [atomicWrite, applyOps, applyOp, hne]
  · intro fs path data uuid8
    simp [atomicWrite, applyOps, applyOp]
  · intro vaultPath qf url now uuid8
    simp only [addToQueue]
    by_cases hdup :
        ((readQueue qf).any fun item => decide (itemUrlD item = url)) = true
    · left; rw [if_pos hdup]
    · right
      refine ⟨stringifyJson (JVal.jarr ((readQueue qf) ++
        [JVal.jobj [("url", JVal.jstr url), ("added", JVal.jstr now)]])), ?_⟩
      rw [if_neg hdup]
  · intro vaultPath items uuid8 hne
    rw [writeQueue, if_neg (fun h => hne (List.length_eq_zero.mp h))]

theorem c3_witness :
    dirname ("/v/Articles/.queue.json" ++ ("." ++ "ab12cd34" ++ ".tmp")) =
      dirname "/v/Articles/.queue.json" ∧
    writeQueue "/v" [JVal.jobj [("url", JVal.jstr "https://x/")]] "ab12cd34" =
      atomicWrite (queuePath "/v")
        (stringifyJson (JVal.jarr [JVal.jobj [("url", JVal.jstr "https://x/")]]))
        "ab12cd34" :=
  ⟨c3_atomic_queue_persistence.2.2.2.1 "/v/Articles/.queue.json" "ab12cd34"
      (by decide),
   c3_atomic_queue_persistence.2.2.2.2.2.2.2 "/v"
      [JVal.jobj [("url", JVal.jstr "https://x/")]] "ab12cd34"
      (List.cons_ne_nil _ _)⟩

/-! ### Batch processing (C4) -/

theorem processQueueLoop_results (save : String → SaveOutcome)
    (queue : List JVal) :
    (processQueueLoop save queue).1 = queue.map (fun i => save (itemUrlD i)) := by
  induction queue with
  | nil => rfl
  | cons item rest ih =>
    show save (itemUrlD item) :: (processQueueLoop save rest).1 = _
    rw [List.map_cons, ih]

theorem processQueueLoop_failed (save : String → SaveOutcome)
    (queue : List JVal) :
    (processQueueLoop save queue).2 = queue.filter
      (fun i => !(save (itemUrlD i)).success && !(save (itemUrlD i)).duplicate) := by
  induction queue with
  | nil => rfl
  | cons item rest ih =>
    show (if (!(save (itemUrlD item)).success && !(save (itemUrlD item)).duplicate)
        then item :: (processQueueLoop save rest).2
        else (processQueueLoop save rest).2) = _
    rw [List.filter_cons, ih]

/-- Queue of one failing and one succeeding URL, as in the spec's example. -/
def exampleFailItem : JVal :=
  .jobj [("url", .jstr "https://fail.example/x"), ("added", .jstr "2026-02-15T10:00:00Z")]

def exampleOkItem : JVal :=
  .jobj [("url", .jstr "https://ok.example/y"), ("added", .jstr "2026-02-15T10:01:00Z")]

/-- A save oracle that fails the first URL and succeeds on the second. -/
def exampleBatchSave : String → SaveOutcome :=
  fun u => if u = "https://fail.example/x" then ⟨false, false⟩ else ⟨true, false⟩

/-- C4: `processQueue` processes the stored items one at a time in stored
order (the results list is the in-order image of the queue under the save
oracle), and persists back exactly the items whose outcome was neither
success nor duplicate; for a queue of one failing and one succeeding URL,
exactly the failing item is written back. -/
theorem c4_processQueue_order_and_retention :
    (∀ save queue, (processQueueLoop save queue).1 =
        queue.map (fun i => save (itemUrlD i)))
  ∧ (∀ save queue, (processQueueLoop save queue).2 =
        queue.filter
          (fun i => !(save (itemUrlD i)).success && !(save (itemUrlD i)).duplicate))
  ∧ (∀ save vaultPath qf uuid8, readQueue qf ≠ [] →
      (processQueue save vaultPath qf uuid8).2.2 =
        writeQueue vaultPath ((readQueue qf).filter
          (fun i => !(save (itemUrlD i)).success && !(save (itemUrlD i)).duplicate))
          uuid8)
  ∧ (processQueue exampleBatchSave "/vault"
      (QueueFile.jsonContent (JVal.jarr [exampleFailItem, exampleOkItem]))
      "ab12cd34").2.1 = [exampleFailItem]
  ∧ (processQueue exampleBatchSave "/vault"
      (QueueFile.jsonContent (JVal.jarr [exampleFailItem, exampleOkItem]))
      "ab12cd34").2.2 =
      atomicWrite (queuePath "/vault") (stringifyJson (JVal.jarr [exampleFailItem]))
        "ab12cd34" := by
  refine ⟨processQueueLoop_results, processQueueLoop_failed, ?_, rfl, rfl⟩
  intro save vaultPath qf uuid8 hne
  rcases hq : readQueue qf with _ | ⟨a, t⟩
  · exact absurd hq hne
  · rw [processQueue, hq]
    simp only [List.isEmpty_cons, Bool.false_eq_true, if_false,
      processQueueLoop_failed]

theorem c4_witness :
    (processQueue exampleBatchSave "/vault"
      (QueueFile.jsonContent (JVal.jarr [exampleFailItem, exampleOkItem]))
      "ab12cd34").2.2 =
      writeQueue "/vault"
        ((readQueue (QueueFile.jsonContent (JVal.jarr [exampleFailItem, exampleOkItem]))).filter
          (fun i => !(exampleBatchSave (itemUrlD i)).success &&
            !(exampleBatchSave (itemUrlD i)).duplicate)) "ab12cd34" :=
  c4_processQueue_order_and_retention.2.2.1 exampleBatchSave "/vault"
    (QueueFile.jsonContent (JVal.jarr [exampleFailItem, exampleOkItem]))
    "ab12cd34" (List.cons_ne_nil _ _)


/-! ### URL validation claim (C1) -/

theorem isValidUrl_parse_some {s : String} {url : URLRec}
    (h : parseURL s = some url) : isValidUrl s = validCheck url := by
  rw [isValidUrl, h]

theorem isValidUrl_parse_none {s : String}
    (h : parseURL s = none) : isValidUrl s = false := by
  rw [isValidUrl, h]

theorem validCheck_blocked {url : URLRec}
    (hmem : lowerList url.hostname ∈ BLOCKED_HOSTNAMES) :
    validCheck url = false := by
  rw [validCheck]
  by_cases hs : url.scheme ≠ "http".data ∧ url.scheme ≠ "https".data
  · rw [if_pos hs]
  · rw [if_neg hs, if_pos (by simpa [List.contains, List.elem_iff] using hmem)]

theorem validCheck_suffix {url : URLRec}
    (hsuf : ∃ suf ∈ BLOCKED_SUFFIXES,
      suf.isSuffixOf (lowerList url.hostname) = true) :
    validCheck url = false := by
  rw [validCheck]
  by_cases hs : url.scheme ≠ "http".data ∧ url.scheme ≠ "https".data
  · rw [if_pos hs]
  · rw [if_neg hs]
    by_cases hb : BLOCKED_HOSTNAMES.contains (lowerList url.hostname) = true
    · rw [if_pos hb]
    · obtain ⟨suf, hm, hu⟩ := hsuf
      rw [if_neg hb, if_pos (List.any_eq_true.mpr ⟨suf, hm, hu⟩)]

theorem validCheck_private_pattern {url : URLRec}
    (hpat : ∃ p ∈ PRIVATE_IP_PATTERNS, p (lowerList url.hostname) = true) :
    validCheck url = false := by
  rw [validCheck]
  by_cases hs : url.scheme ≠ "http".data ∧ url.scheme ≠ "https".data
  · rw [if_pos hs]
  · rw [if_neg hs]
    by_cases hb : BLOCKED_HOSTNAMES.contains (lowerList url.hostname) = true
    · rw [if_pos hb]
    · rw [if_neg hb]
      by_cases hsuf : BLOCKED_SUFFIXES.any
          (fun suf => suf.isSuffixOf (lowerList url.hostname)) = true
      · rw [if_pos hsuf]
      · obtain ⟨p, hm, hp⟩ := hpat
        rw [if_neg hsuf, if_pos (List.any_eq_true.mpr ⟨p, hm, hp⟩)]

theorem validCheck_numeric {url : URLRec}
    (hnum : isPureDigits (lowerList url.hostname) = true ∨
      isHexEncoded (lowerList url.hostname) = true) :
    validCheck url = false := by
  rw [validCheck]
  by_cases hs : url.scheme ≠ "http".data ∧ url.scheme ≠ "https".data
  · rw [if_pos hs]
  · rw [if_neg hs]
    by_cases hb : BLOCKED_HOSTNAMES.contains (lowerList url.hostname) = true
    · rw [if_pos hb]
    · rw [if_neg hb]
      by_cases hsuf : BLOCKED_SUFFIXES.any
          (fun suf => suf.isSuffixOf (lowerList url.hostname)) = true
      · rw [if_pos hsuf]
      · rw [if_neg hsuf]
        by_cases hpat : PRIVATE_IP_PATTERNS.any
            (fun p => p (lowerList url.hostname)) = true
        · rw [if_pos hpat]
        · rw [if_neg hpat]
          rcases hnum with hd | hh
          · rw [if_pos hd]
          · by_cases hd2 : isPureDigits (lowerList url.hostname) = true
            · rw [if_pos hd2]
            · rw [if_neg hd2, if_pos hh]

/-- C1: `isValidUrl` rejects malformed URLs (parse failure), non-HTTP(S)
schemes, hostnames in the blocked set, hostnames ending in a reserved
suffix, hostnames matching a private/loopback/link-local IPv4 or IPv6
pattern, and purely numeric or hex-encoded hostnames; in particular it
rejects `http://127.0.0.1/`, `http://169.254.169.254/`, `http://10.0.0.5/`
and `http://foo.internal/`, and accepts `https://example.com/path`. -/
theorem c1_validate_rejects_ssrf (s : String) :
    (parseURL s = none → isValidUrl s = false)
  ∧ (∀ url, parseURL s = some url →
      url.scheme ≠ "http".data → url.scheme ≠ "https".data →
      isValidUrl s = false)
  ∧ (∀ url, parseURL s = some url →
      lowerList url.hostname ∈ BLOCKED_HOSTNAMES → isValidUrl s = false)
  ∧ (∀ url, parseURL s = some url →
      (∃ suf ∈ BLOCKED_SUFFIXES, suf.isSuffixOf (lowerList url.hostname) = true) →
      isValidUrl s = false)
  ∧ (∀ url, parseURL s = some url →
      (∃ p ∈ PRIVATE_IP_PATTERNS, p (lowerList url.hostname) = true) →
      isValidUrl s = false)
  ∧ (∀ url, parseURL s = some url →
      isPureDigits (lowerList url.hostname) = true ∨
        isHexEncoded (lowerList url.hostname) = true →
      isValidUrl s = false)
  ∧ isValidUrl "http://127.0.0.1/" = false
  ∧ isValidUrl "http://169.254.169.254/" = false
  ∧ isValidUrl "http://10.0.0.5/" = false
  ∧ isValidUrl "http://foo.internal/" = false
  ∧ isValidUrl "https://example.com/path" = true := by
  refine ⟨isValidUrl_parse_none, ?_, ?_, ?_, ?_, ?_, rfl, rfl, rfl, rfl, rfl⟩
  · intro url hp h1 h2
    rw [isValidUrl_parse_some hp, validCheck, if_pos ⟨h1, h2⟩]
  · intro url hp hmem
    rw [isValidUrl_parse_some hp, validCheck_blocked hmem]
  · intro url hp hsuf
    rw [isValidUrl_parse_some hp, validCheck_suffix hsuf]
  · intro url hp hpat
    rw [isValidUrl_parse_some hp, validCheck_private_pattern hpat]
  · intro url hp hnum
    rw [isValidUrl_parse_some hp, validCheck_numeric hnum]

theorem c1_witness :
    isValidUrl "ftp://example.com/" = false ∧
    isValidUrl "http://localhost/" = false ∧
    isValidUrl "http://foo.local/" = false ∧
    isValidUrl "http://[fe80::1]/" = false ∧
    isValidUrl "http://0x7f000001/" = false ∧
    isValidUrl "not a url" = false :=
  ⟨(c1_validate_rejects_ssrf "ftp://example.com/").2.1
      ⟨"ftp".data, "example.com".data, none, "/".data, none, none⟩ rfl
      (by decide) (by decide),
   (c1_validate_rejects_ssrf "http://localhost/").2.2.1
      ⟨"http".data, "localhost".data, none, "/".data, none, none⟩ rfl
      (by decide),
   (c1_validate_rejects_ssrf "http://foo.local/").2.2.2.1
      ⟨"http".data, "foo.local".data, none, "/".data, none, none⟩ rfl
      ⟨".local".data, by decide, by decide⟩,
   (c1_validate_rejects_ssrf "http://[fe80::1]/").2.2.2.2.1
      ⟨"http".data, "[fe80::1]".data, none, "/".data, none, none⟩ rfl
      ⟨patFe80, by simp [PRIVATE_IP_PATTERNS], by decide⟩,
   (c1_validate_rejects_ssrf "http://0x7f000001/").2.2.2.2.2.1
      ⟨"http".data, "0x7f000001".data, none, "/".data, none, none⟩ rfl
      (Or.inr (by decide)),
   (c1_validate_rejects_ssrf "not a url").1 rfl⟩


/-! ### Duplicate detection claim (C6) -/

/-- A small vault: one matching document, one non-`.md` file, one
unreadable file. -/
def exampleVault : List VaultFile :=
  [⟨"a.md", some "---\nurl: https://example.com/a\ntitle: \"A Story\"\n---\n\n# A Story\nbody"⟩,
   ⟨"notes.txt", some "url: https://example.com/b"⟩,
   ⟨"broken.md", none⟩]

theorem findDuplicateGo_eq_find (u : String) (files : List VaultFile) :
    findDuplicateGo u files =
      (files.find? (fun f => (f.content.map (fileMatches u)).getD false)).map
        (fun f => ⟨f.name, f.content.bind titleOf⟩) := by
  induction files with
  | nil => rfl
  | cons f rest ih =>
    rw [findDuplicateGo]
    cases hc : f.content with
    | none =>
      simp only []
      rw [List.find?_cons_of_neg _ (by simp [hc])]
      exact ih
    | some c =>
      simp only []
      by_cases hm : fileMatches u c = true
      · rw [if_pos hm, List.find?_cons_of_pos _ (by simp [hc, hm])]
        simp [hc]
      · rw [if_neg hm, List.find?_cons_of_neg _ (by simp [hc, hm])]
        exact ih

/-- C6: `findDuplicate` returns `none` when the `Articles` directory is
missing; otherwise it scans the `.md` files in directory order and returns
the first readable file whose header `url:` field equals the normalized URL
by exact string equality, skipping unreadable or malformed files and
returning `none` when nothing matches; the match and the reported title
depend only on the header block between the first and second `---`
delimiters. -/
theorem c6_findDuplicate_first_exact_match :
    (∀ u, findDuplicate u none = none)
  ∧ (∀ u files, findDuplicate u (some files) =
      ((files.filter (fun f => ".md".data.isSuffixOf f.name.data)).find?
        (fun f => (f.content.map (fileMatches u)).getD false)).map
        (fun f => ⟨f.name, f.content.bind titleOf⟩))
  ∧ (∀ u c1 c2, fmBlock c1 = fmBlock c2 →
      fileMatches u c1 = fileMatches u c2 ∧ titleOf c1 = titleOf c2)
  ∧ (∀ u c fm v, fmBlock c = some fm → firstFieldValue "url" fm = some v →
      (fileMatches u c = true ↔ v = u.data))
  ∧ findDuplicate "https://example.com/a" (some exampleVault) =
      some ⟨"a.md", some "A Story"⟩
  ∧ findDuplicate "https://example.com/b" (some exampleVault) = none := by
  refine ⟨fun u => rfl, ?_, ?_, ?_, rfl, rfl⟩
  · intro u files
    rw [findDuplicate]
    exact findDuplicateGo_eq_find u _
  · intro u c1 c2 h
    constructor
    · rw [fileMatches, fileMatches, h]
    · rw [titleOf, titleOf, h]
  · intro u c fm v h1 h2
    have hstep : fileMatches u c = decide (v = u.data) := by
      rw [fileMatches, h1]
      simp only []
      rw [h2]
    rw [hstep]
    simp

theorem c6_witness :
    fileMatches "https://example.com/a"
        "---\nurl: https://example.com/a\ntitle: \"A Story\"\n---\nbody" = true ↔
      ("https://example.com/a".data : List Char) = "https://example.com/a".data :=
  c6_findDuplicate_first_exact_match.2.2.2.1 "https://example.com/a"
    "---\nurl: https://example.com/a\ntitle: \"A Story\"\n---\nbody"
    ("url: https://example.com/a\ntitle: \"A Story\"".data)
    ("https://example.com/a".data) rfl rfl

/-! ### Exit code claim (C2) -/

def exampleMetaEmpty : Meta := ⟨none, none, none, none, none, none, none⟩

def exampleArticle : Article := ⟨some "T", none, "some content"⟩

/-- A metadata extractor in the shape of `extractMetadata`. -/
def exampleExtractMeta : Article → Meta → String → Metadata :=
  fun a _ _ => ⟨a.title, none, some "Example", none⟩

def exampleExtractKw : String → List String := fun _ => []

/-- C2 counterexample: a single save whose outcome is Duplicate exits with
code 1, not 0 — the duplicate result object carries `success: false` and
`saveArticle` exits `result.success ? 0 : 1`. -/
theorem c2_counterexample_duplicate_exits_one :
    saveUrl ⟨none, false⟩ "2026-02-15" exampleExtractKw exampleExtractMeta
        (some exampleVault) (.fetchOk exampleArticle exampleMetaEmpty)
        "https://example.com/a" =
      SaveResult.duplicateFound "Articles/a.md" (some "A Story")
  ∧ saveArticleExitCode
      (saveUrl ⟨none, false⟩ "2026-02-15" exampleExtractKw exampleExtractMeta
        (some exampleVault) (.fetchOk exampleArticle exampleMetaEmpty)
        "https://example.com/a") = 1 :=
  ⟨rfl, rfl⟩

/-- C2 (amended): a Duplicate outcome exits non-zero (1) like a failure,
because the duplicate result carries `success: false`; the exit code is 0
exactly when the result is a successful save (including partial and
dry-run), and 1 on validation failure and on every other failure. -/
theorem c2_exit_codes :
    (∀ r, resultDuplicate r = true → saveArticleExitCode r = 1)
  ∧ (∀ r, saveArticleExitCode r = if resultSuccess r then 0 else 1)
  ∧ (∀ fm d, saveArticleExitCode (SaveResult.saved fm d) = 0)
  ∧ (∀ e, saveArticleExitCode (SaveResult.failure e) = 1)
  ∧ (∀ v today ek em dir f u, isValidUrl u = false →
      saveUrl v today ek em dir f u = SaveResult.failure "Invalid URL format") := by
  refine ⟨?_, fun r => rfl, fun fm d => rfl, fun e => rfl, ?_⟩
  · intro r h
    cases r with
    | failure e => rfl
    | duplicateFound f t => rfl
    | saved fm d => simp [resultDuplicate] at h
  · intro v today ek em dir f u h
    rw [saveUrl, if_pos (by simp [h])]

theorem c2_witness :
    saveArticleExitCode
      (SaveResult.duplicateFound "Articles/a.md" (some "A Story")) = 1 ∧
    saveUrl ⟨none, false⟩ "2026-02-15" exampleExtractKw exampleExtractMeta
        (some exampleVault) (.fetchOk exampleArticle exampleMetaEmpty)
        "ftp://example.com/" = SaveResult.failure "Invalid URL format" :=
  ⟨c2_exit_codes.1 (SaveResult.duplicateFound "Articles/a.md" (some "A Story")) rfl,
   c2_exit_codes.2.2.2.2 ⟨none, false⟩ "2026-02-15" exampleExtractKw
     exampleExtractMeta (some exampleVault)
     (.fetchOk exampleArticle exampleMetaEmpty) "ftp://example.com/" rfl⟩

/-! ### Tag sentinel claim (C9) -/

theorem buildFrontmatter_tags_ne_nil (inp : FmInput) (today : String) :
    (buildFrontmatter inp today).tags ≠ [] := by
  rw [buildFrontmatter]
  cases ht : inp.tags with
  | none => simp
  | some ts =>
    by_cases hl : ts.length > 0
    · simp only [if_pos hl]
      exact List.length_pos.mp hl
    · simp only [if_neg hl]
      simp

/-- C9: every header built by `buildFrontmatter` carries a non-empty tags
list; on the complete branch with no `--tags` flag and empty keyword
extraction the sentinel `untagged` is written; on the partial branch the
tags are the explicit `--tags` override or the sentinel — never
keyword-derived; and every saved result of `saveUrl` has non-empty tags. -/
theorem c9_tags_nonempty_and_sentinel :
    (∀ inp today, (buildFrontmatter inp today).tags ≠ [])
  ∧ (∀ v today ek em dir art meta u fm dr,
      saveUrl v today ek em dir (.fetchOk art meta) u = .saved fm dr →
      v.tags = none → ek art.content = [] → fm.tags = ["untagged"])
  ∧ (∀ v today nu dom meta, v.tags = none →
      ∃ fm, savePartialDoc v today nu dom meta = .saved fm v.dryRun ∧
        fm.tags = ["untagged"])
  ∧ (∀ v today nu dom meta t, v.tags = some t → t ≠ "" →
      ∃ fm, savePartialDoc v today nu dom meta = .saved fm v.dryRun ∧
        fm.tags = splitTagsFlag t)
  ∧ (∀ v today ek em dir f u fm dr,
      saveUrl v today ek em dir f u = .saved fm dr → fm.tags ≠ []) := by
  refine ⟨buildFrontmatter_tags_ne_nil, ?_, ?_, ?_, ?_⟩
  · intro v today ek em dir art meta u fm dr h hv0 hek
    rw [saveUrl] at h
    split at h
    · exact absurd h (by simp)
    · split at h
      · exact absurd h (by simp)
      · split at h
        · exact absurd h (by simp)
        · simp only [] at h
          simp only [SaveResult.saved.injEq] at h
          rw [← h.1]
          simp [buildFrontmatter, completeTags, hv0, hek]
  · intro v today nu dom meta hv0
    refine ⟨_, rfl, ?_⟩
    simp [savePartialDoc, buildFrontmatter, partialTags, hv0]
  · intro v today nu dom meta t hvt ht
    refine ⟨_, rfl, ?_⟩
    simp only [savePartialDoc, buildFrontmatter, partialTags, hvt, if_neg ht]
    rcases hsp : splitTagsFlag t with _ | ⟨a, rest⟩
    · exact absurd hsp (by
        rw [splitTagsFlag]
        cases hq : splitAll ',' t.data with
        | nil => exact absurd hq (splitAll_ne_nil ',' t.data)
        | cons x xs => simp)
    · simp
  · intro v today ek em dir f u fm dr h
    rw [saveUrl] at h
    split at h
    · exact absurd h (by simp)
    · split at h
      · exact absurd h (by simp)
      · split at h
        · exact absurd h (by simp)
        · cases f with
          | fetchThrow tmo msg =>
            cases tmo with
            | true => simp only [] at h; exact absurd h (by simp)
            | false => simp only [] at h; exact absurd h (by simp)
          | fetchFail err pf mo =>
            cases pf with
            | false =>
              simp only [] at h; exact absurd h (by simp)
            | true =>
              cases mo with
              | none => simp only [] at h; exact absurd h (by simp)
              | some meta =>
                simp only [] at h
                rw [savePartialDoc] at h
                simp only [SaveResult.saved.injEq] at h
                rw [← h.1]
                exact buildFrontmatter_tags_ne_nil _ _
          | fetchOk art meta =>
            simp only [] at h
            simp only [SaveResult.saved.injEq] at h
            rw [← h.1]
            exact buildFrontmatter_tags_ne_nil _ _

theorem c9_witness :
    (∃ fm, savePartialDoc ⟨none, false⟩ "2026-02-15" "https://example.com/a"
        (some "example.com") exampleMetaEmpty = .saved fm false ∧
      fm.tags = ["untagged"]) ∧
    (∃ fm, savePartialDoc ⟨some "AI , ML", true⟩ "2026-02-15"
        "https://example.com/a" (some "example.com") exampleMetaEmpty =
          .saved fm true ∧
      fm.tags = splitTagsFlag "AI , ML") :=
  ⟨c9_tags_nonempty_and_sentinel.2.2.1 ⟨none, false⟩ "2026-02-15"
     "https://example.com/a" (some "example.com") exampleMetaEmpty rfl,
   c9_tags_nonempty_and_sentinel.2.2.2.1 ⟨some "AI , ML", true⟩ "2026-02-15"
     "https://example.com/a" (some "example.com") exampleMetaEmpty "AI , ML"
     rfl (by decide)⟩


/-! ### Character-class facts used by the URL round-trip -/

theorem char_le_iff (a b : Char) : a ≤ b ↔ a.toNat ≤ b.toNat := Iff.rfl

theorem char_isUpper_iff {c : Char} : c.isUpper = true ↔ 65 ≤ c.toNat ∧ c.toNat ≤ 90 := by
  simp only [Char.isUpper, Bool.and_eq_true, decide_eq_true_eq]
  exact Iff.rfl

theorem char_isLower_iff {c : Char} : c.isLower = true ↔ 97 ≤ c.toNat ∧ c.toNat ≤ 122 := by
  simp only [Char.isLower, Bool.and_eq_true, decide_eq_true_eq]
  exact Iff.rfl

theorem char_isDigit_iff {c : Char} : c.isDigit = true ↔ 48 ≤ c.toNat ∧ c.toNat ≤ 57 := by
  simp only [Char.isDigit, Bool.and_eq_true, decide_eq_true_eq]
  exact Iff.rfl

theorem char_ne_of_toNat_ne {a b : Char} (h : a.toNat ≠ b.toNat) : a ≠ b :=
  fun he => h (he ▸ rfl)

theorem lowerChar_isAlpha {c : Char} (h : c.isAlpha = true) :
    (lowerChar c).isAlpha = true := by
  by_cases hu : 'A' ≤ c ∧ c ≤ 'Z'
  · have hl := lowerChar_upper hu
    have h1 : 65 ≤ c.toNat := hu.1
    have h2 : c.toNat ≤ 90 := hu.2
    rw [Char.isAlpha, Bool.or_eq_true]
    right
    rw [char_isLower_iff]
    omega
  · rw [lowerChar_not_upper hu]
    exact h

theorem lowerChar_isSchemeChar {c : Char} (h : isSchemeChar c = true) :
    isSchemeChar (lowerChar c) = true := by
  by_cases hu : 'A' ≤ c ∧ c ≤ 'Z'
  · have hl := lowerChar_upper hu
    have h1 : 65 ≤ c.toNat := hu.1
    have h2 : c.toNat ≤ 90 := hu.2
    rw [isSchemeChar, Bool.or_eq_true, Bool.or_eq_true, Bool.or_eq_true,
      Bool.or_eq_true]
    left; left; left; left
    rw [Char.isAlpha, Bool.or_eq_true]
    right
    rw [char_isLower_iff]
    omega
  · rw [lowerChar_not_upper hu]
    exact h

/-- The delimiter and separator characters are untouched by lower-casing. -/
theorem special_range (c' : Char)
    (h : c' = '/' ∨ c' = '?' ∨ c' = '#' ∨ c' = '@' ∨ c' = '[' ∨ c' = ']' ∨
      c' = ':' ∨ c' = '&' ∨ c' = '=') :
    c'.toNat < 65 ∨ (90 < c'.toNat ∧ c'.toNat < 97) := by
  rcases h with rfl | rfl | rfl | rfl | rfl | rfl | rfl | rfl | rfl <;> decide

theorem not_mem_lowerList_special {c' : Char}
    (hr : c' = '/' ∨ c' = '?' ∨ c' = '#' ∨ c' = '@' ∨ c' = '[' ∨ c' = ']' ∨
      c' = ':' ∨ c' = '&' ∨ c' = '=')
    {l : List Char} (h : c' ∉ l) : c' ∉ lowerList l :=
  lowerList_not_mem_special (special_range c' hr) h

theorem lowerList_ne_nil {l : List Char} (h : l ≠ []) : lowerList l ≠ [] := by
  cases l with
  | nil => exact absurd rfl h
  | cons x xs => simp [lowerList]

/-! ### Query parameter round-trip -/

/-- Invariant on a parsed query parameter: the name is free of `=`, `&`, `#`,
the value free of `&`, `#`. -/
def paramOK (pr : List Char × List Char) : Prop :=
  '=' ∉ pr.1 ∧ '&' ∉ pr.1 ∧ '#' ∉ pr.1 ∧ '&' ∉ pr.2 ∧ '#' ∉ pr.2

theorem amp_not_mem_piece {pr : List Char × List Char} (h : paramOK pr) :
    '&' ∉ pr.1 ++ '=' :: pr.2 := by
  intro hm
  rcases List.mem_append.mp hm with h1 | h2
  · exact h.2.1 h1
  · rcases List.mem_cons.mp h2 with he | h3
    · exact absurd he (by decide)
    · exact h.2.2.2.1 h3

theorem hash_not_mem_piece {pr : List Char × List Char} (h : paramOK pr) :
    '#' ∉ pr.1 ++ '=' :: pr.2 := by
  intro hm
  rcases List.mem_append.mp hm with h1 | h2
  · exact h.2.2.1 h1
  · rcases List.mem_cons.mp h2 with he | h3
    · exact absurd he (by decide)
    · exact h.2.2.2.2 h3

theorem parseParamPiece_roundtrip {pr : List Char × List Char} (h : paramOK pr) :
    parseParamPiece (pr.1 ++ '=' :: pr.2) = some pr := by
  rw [parseParamPiece]
  rw [if_neg (by simp)]
  rw [splitFirst_append_cons _ h.1]

theorem serializeParams_cons_cons (p q : List Char × List Char)
    (rest : List (List Char × List Char)) :
    serializeParams (p :: q :: rest) =
      p.1 ++ '=' :: p.2 ++ '&' :: serializeParams (q :: rest) := rfl

theorem parseParams_serializeParams {ps : List (List Char × List Char)}
    (h : ∀ pr ∈ ps, paramOK pr) :
    parseParams (serializeParams ps) = ps := by
  induction ps with
  | nil => rfl
  | cons p rest ih =>
    have hp : paramOK p := h p (List.mem_cons_self p rest)
    cases rest with
    | nil =>
      show parseParams (p.1 ++ '=' :: p.2) = [p]
      rw [parseParams, splitAll_no_sep (amp_not_mem_piece hp)]
      simp [parseParamPiece_roundtrip hp]
    | cons q rest2 =>
      rw [serializeParams_cons_cons, parseParams]
      have happ : p.1 ++ '=' :: p.2 ++ '&' :: serializeParams (q :: rest2) =
          (p.1 ++ '=' :: p.2) ++ '&' :: serializeParams (q :: rest2) := by
        simp [List.append_assoc]
      rw [happ, splitAll_append_cons (amp_not_mem_piece hp)]
      rw [List.filterMap_cons]
      rw [parseParamPiece_roundtrip hp]
      have ih2 := ih (fun pr hm => h pr (List.mem_cons_of_mem p hm))
      rw [parseParams] at ih2
      rw [ih2]

theorem serializeParams_ne_nil {ps : List (List Char × List Char)}
    (h : ps ≠ []) : serializeParams ps ≠ [] := by
  cases ps with
  | nil => exact absurd rfl h
  | cons p rest =>
    cases rest with
    | nil => simp [serializeParams]
    | cons q rest2 => simp [serializeParams_cons_cons]

theorem serializeParams_mem {ps : List (List Char × List Char)} {x : Char}
    (h : x ∈ serializeParams ps) :
    x = '=' ∨ x = '&' ∨ ∃ pr ∈ ps, x ∈ pr.1 ∨ x ∈ pr.2 := by
  induction ps with
  | nil => simp [serializeParams] at h
  | cons p rest ih =>
    cases rest with
    | nil =>
      rcases List.mem_append.mp h with h1 | h2
      · exact Or.inr (Or.inr ⟨p, List.mem_cons_self p [], Or.inl h1⟩)
      · rcases List.mem_cons.mp h2 with he | h3
        · exact Or.inl he
        · exact Or.inr (Or.inr ⟨p, List.mem_cons_self p [], Or.inr h3⟩)
    | cons q rest2 =>
      rw [serializeParams_cons_cons] at h
      rcases List.mem_append.mp h with h1 | h2
      · rcases List.mem_append.mp h1 with h1a | h1b
        · exact Or.inr (Or.inr ⟨p, List.mem_cons_self p _, Or.inl h1a⟩)
        · rcases List.mem_cons.mp h1b with he | h1c
          · exact Or.inl he
          · exact Or.inr (Or.inr ⟨p, List.mem_cons_self p _, Or.inr h1c⟩)
      · rcases List.mem_cons.mp h2 with he2 | h6
        · exact Or.inr (Or.inl he2)
        · rcases ih h6 with h7 | h7 | ⟨pr, hm, h7⟩
          · exact Or.inl h7
          · exact Or.inr (Or.inl h7)
          · exact Or.inr (Or.inr ⟨pr, List.mem_cons_of_mem p hm, h7⟩)

theorem hash_not_mem_serializeParams {ps : List (List Char × List Char)}
    (h : ∀ pr ∈ ps, paramOK pr) : '#' ∉ serializeParams ps := by
  intro hm
  rcases serializeParams_mem hm with he | he | ⟨pr, hmem, hin⟩
  · exact absurd he (by decide)
  · exact absurd he (by decide)
  · rcases hin with h1 | h2
    · exact (h pr hmem).2.2.1 h1
    · exact (h pr hmem).2.2.2.2 h2


/-! ### Well-formed URL records and the parse/serialize round-trip -/

theorem contains_iff {α : Type} [BEq α] [LawfulBEq α] {l : List α} {c : α} :
    l.contains c = true ↔ c ∈ l := by
  simp [List.contains, List.elem_iff]

theorem not_contains_of_not_mem {α : Type} [BEq α] [LawfulBEq α] {l : List α}
    {c : α} (h : c ∉ l) : ¬ (l.contains c = true) := by
  rw [contains_iff]
  exact h

theorem contains_eq_false {α : Type} [BEq α] [LawfulBEq α] {l : List α} {c : α}
    (h : c ∉ l) : l.contains c = false := by
  rw [Bool.eq_false_iff, Ne, contains_iff]
  exact h

theorem canonicalPort_ne_nil {p : List Char} (h : canonicalPort p = true) :
    p ≠ [] := by
  intro he
  subst he
  exact absurd h (by decide)

theorem canonicalPort_digits {p : List Char} (h : canonicalPort p = true) :
    ∀ c ∈ p, c.isDigit = true := by
  intro c hc
  rw [canonicalPort, Bool.and_eq_true, Bool.and_eq_true] at h
  exact List.all_eq_true.mp h.1.1 c hc

theorem digit_ne_special {c : Char} (h : c.isDigit = true) :
    c ≠ '/' ∧ c ≠ '?' ∧ c ≠ '#' ∧ c ≠ '@' ∧ c ≠ ':' ∧ c ≠ '[' ∧ c ≠ ']' := by
  obtain ⟨h1, h2⟩ := char_isDigit_iff.mp h
  refine ⟨char_ne_of_toNat_ne ?_, char_ne_of_toNat_ne ?_, char_ne_of_toNat_ne ?_,
    char_ne_of_toNat_ne ?_, char_ne_of_toNat_ne ?_, char_ne_of_toNat_ne ?_,
    char_ne_of_toNat_ne ?_⟩
  · rw [show ('/' : Char).toNat = 47 from rfl]; omega
  · rw [show ('?' : Char).toNat = 63 from rfl]; omega
  · rw [show ('#' : Char).toNat = 35 from rfl]; omega
  · rw [show ('@' : Char).toNat = 64 from rfl]; omega
  · rw [show (':' : Char).toNat = 58 from rfl]; omega
  · rw [show ('[' : Char).toNat = 91 from rfl]; omega
  · rw [show (']' : Char).toNat = 93 from rfl]; omega

/-- Non-bracket host invariant: non-empty, no brackets or colon, lower-case
fixed. -/
def plainHost (h : List Char) : Prop :=
  h ≠ [] ∧ '[' ∉ h ∧ ']' ∉ h ∧ ':' ∉ h ∧ lowerList h = h

/-- Bracketed IPv6 host invariant. -/
def bracketHost (h : List Char) : Prop :=
  ∃ inside, h = '[' :: inside ++ [']'] ∧ inside ≠ [] ∧ '[' ∉ inside ∧
    ']' ∉ inside ∧ lowerList inside = inside

/-- Invariants satisfied by every URL record the parser produces; they are
exactly what makes `parseUrlChars (serializeChars u) = some u` hold. -/
structure WFURL (u : URLRec) : Prop where
  scheme_nonempty : u.scheme ≠ []
  scheme_head_alpha : ∀ c cs, u.scheme = c :: cs → c.isAlpha = true
  scheme_chars : u.scheme.all isSchemeChar = true
  scheme_lower : lowerList u.scheme = u.scheme
  host_no_delims : ∀ c ∈ u.hostname, c ≠ '/' ∧ c ≠ '?' ∧ c ≠ '#' ∧ c ≠ '@'
  host_ok : plainHost u.hostname ∨ bracketHost u.hostname
  port_ok : ∀ p, u.port = some p → canonicalPort p = true
  port_nodefault : elideDefaultPort u.scheme u.port = u.port
  path_head : ∃ t, u.path = '/' :: t
  path_no_q : '?' ∉ u.path
  path_no_h : '#' ∉ u.path
  query_ok : ∀ ps, u.query = some ps → ∀ pr ∈ ps, paramOK pr

theorem portPart_chars {port : Option (List Char)}
    (hport : ∀ p, port = some p → canonicalPort p = true) :
    ∀ c ∈ portPart port, c = ':' ∨ c.isDigit = true := by
  intro c hc
  cases port with
  | none => simp [portPart] at hc
  | some p =>
    rw [portPart] at hc
    rcases List.mem_cons.mp hc with rfl | hm
    · exact Or.inl rfl
    · exact Or.inr (canonicalPort_digits (hport p rfl) c hm)

theorem parseAuthority_roundtrip {host : List Char} {port : Option (List Char)}
    (hat : ∀ c ∈ host, c ≠ '@')
    (hok : plainHost host ∨ bracketHost host)
    (hport : ∀ p, port = some p → canonicalPort p = true) :
    parseAuthority (host ++ portPart port) = some (host, port) := by
  have hatpp : '@' ∉ host ++ portPart port := by
    intro hm
    rcases List.mem_append.mp hm with h1 | h2
    · exact hat '@' h1 rfl
    · rcases portPart_chars hport '@' h2 with he | hd
      · exact absurd he (by decide)
      · exact (digit_ne_special hd).2.2.2.1 rfl
  rcases hok with ⟨hne, hb1, hb2, hcol, hlower⟩ |
    ⟨inside, heq, hine, hib, hib2, hilower⟩
  · -- plain host
    obtain ⟨hc, ht, rfl⟩ : ∃ c t, host = c :: t := by
      cases host with
      | nil => exact absurd rfl hne
      | cons c t => exact ⟨c, t, rfl⟩
    have hcne : hc ≠ '[' := fun he => hb1 (he ▸ List.mem_cons_self hc ht)
    rw [List.cons_append] at hatpp ⊢
    rw [parseAuthority, if_neg (not_contains_of_not_mem hatpp)]
    try simp only []
    rw [if_neg hcne]
    cases port with
    | none =>
      rw [show portPart none = [] from rfl, List.append_nil]
      rw [splitFirst_eq_none hcol]
      try simp only []
      rw [if_neg (by rw [contains_eq_false hb1, contains_eq_false hb2]; simp)]
      rw [hlower]
    | some p =>
      rw [show portPart (some p) = ':' :: p from rfl,
        ← List.cons_append, splitFirst_append_cons _ hcol]
      try simp only []
      rw [if_neg (by rw [contains_eq_false hb1, contains_eq_false hb2]; simp)]
      rw [if_neg (by simp [List.isEmpty_iff, canonicalPort_ne_nil (hport p rfl)])]
      rw [if_pos (hport p rfl), hlower]
  · -- bracket host
    subst heq
    have hshape : ('[' :: inside ++ [']']) ++ portPart port =
        '[' :: (inside ++ ']' :: portPart port) := by
      simp
    rw [hshape] at hatpp ⊢
    rw [parseAuthority, if_neg (not_contains_of_not_mem hatpp)]
    try simp only []
    rw [if_pos (by trivial)]
    rw [splitFirst_append_cons _ hib2]
    try simp only []
    rw [if_neg (by rw [contains_eq_false hib]; simp [List.isEmpty_iff, hine])]
    cases port with
    | none =>
      rw [show portPart none = [] from rfl]
      try simp only []
      rw [hilower]
    | some p =>
      rw [show portPart (some p) = ':' :: p from rfl]
      try simp only []
      rw [if_pos (by trivial)]
      rw [if_neg (by simp [List.isEmpty_iff, canonicalPort_ne_nil (hport p rfl)])]
      rw [if_pos (hport p rfl), hilower]



theorem delim_pred_false {c : Char} (h1 : c ≠ '/') (h2 : c ≠ '?') (h3 : c ≠ '#') :
    (c == '/' || c == '?' || c == '#') = false := by
  simp [h1, h2, h3]

theorem auth_chars_no_delim {u : URLRec} (h : WFURL u) :
    ∀ x ∈ u.hostname ++ portPart u.port,
      (x == '/' || x == '?' || x == '#') = false := by
  intro x hx
  rcases List.mem_append.mp hx with h1 | h2
  · obtain ⟨d1, d2, d3, _⟩ := h.host_no_delims x h1
    exact delim_pred_false d1 d2 d3
  · rcases portPart_chars h.port_ok x h2 with rfl | hd
    · decide
    · obtain ⟨d1, d2, d3, _⟩ := digit_ne_special hd
      exact delim_pred_false d1 d2 d3

theorem scheme_no_colon {u : URLRec} (h : WFURL u) : ':' ∉ u.scheme := by
  intro hm
  have := List.all_eq_true.mp h.scheme_chars ':' hm
  exact absurd this (by decide)

theorem hash_not_mem_queryPart {u : URLRec} (h : WFURL u) :
    '#' ∉ queryPart u.query := by
  cases hq : u.query with
  | none => simp [queryPart]
  | some ps =>
    rw [queryPart]
    intro hm
    rcases List.mem_cons.mp hm with he | hm2
    · exact absurd he (by decide)
    · exact hash_not_mem_serializeParams (h.query_ok ps hq) hm2

/-- The central round-trip: parsing a serialized well-formed URL record gives
back exactly that record. -/
theorem splitHash_no_hash {T : List Char} (h : '#' ∉ T) :
    splitHash T = (T, none) := by
  rw [splitHash, splitFirst_eq_none h]

theorem splitHash_append {b f : List Char} (h : '#' ∉ b) :
    splitHash (b ++ '#' :: f) = (b, some f) := by
  rw [splitHash, splitFirst_append_cons _ h]

theorem splitQst_no_q {b : List Char} (h : '?' ∉ b) :
    splitQst b = (b, none) := by
  rw [splitQst, splitFirst_eq_none h]

theorem splitQst_append {p q : List Char} (h : '?' ∉ p) :
    splitQst (p ++ '?' :: q) = (p, some (parseParams q)) := by
  rw [splitQst, splitFirst_append_cons _ h]

/-- The central round-trip: parsing a serialized well-formed URL record gives
back exactly that record. -/
theorem parse_serialize {u : URLRec} (h : WFURL u) :
    parseUrlChars (serializeChars u) = some u := by
  obtain ⟨t, hpath⟩ := h.path_head
  cases hsch : u.scheme with
  | nil => exact absurd hsch h.scheme_nonempty
  | cons c0 cs =>
  have halpha : c0.isAlpha = true := h.scheme_head_alpha c0 cs hsch
  have hchars : (c0 :: cs).all isSchemeChar = true := hsch ▸ h.scheme_chars
  have hlowsch : lowerList (c0 :: cs) = c0 :: cs := by
    have h2 := h.scheme_lower
    rw [hsch] at h2
    exact h2
  have hcolsch : ':' ∉ c0 :: cs := by
    have h2 := scheme_no_colon h
    rw [hsch] at h2
    exact h2
  have hnodef : elideDefaultPort (c0 :: cs) u.port = u.port := by
    have h2 := h.port_nodefault
    rw [hsch] at h2
    exact h2
  have hpnq : '?' ∉ '/' :: t := by
    have h2 := h.path_no_q
    rw [hpath] at h2
    exact h2
  have hpnh : '#' ∉ '/' :: t := by
    have h2 := h.path_no_h
    rw [hpath] at h2
    exact h2
  have hbh : '#' ∉ ('/' :: t) ++ queryPart u.query := by
    intro hm
    rcases List.mem_append.mp hm with h1 | h2
    · exact hpnh h1
    · exact hash_not_mem_queryPart h h2
  have hser : serializeChars u = (c0 :: cs) ++ ':' ::
      ('/' :: '/' :: ((u.hostname ++ portPart u.port) ++
        ('/' :: (t ++ (queryPart u.query ++ fragPart u.fragment))))) := by
    rw [serializeChars, hsch, hpath]
    simp [List.append_assoc]
  rw [hser, parseUrlChars, splitFirst_append_cons _ hcolsch]
  try simp only []
  rw [if_neg (by simp [halpha]), if_neg (by simp [hchars])]
  try simp only []
  rw [breakWhen_append_cons (auth_chars_no_delim h) (by decide)]
  try simp only []
  rw [parseAuthority_roundtrip (fun c hc => (h.host_no_delims c hc).2.2.2)
    h.host_ok h.port_ok]
  try simp only []
  rw [hlowsch, hnodef]
  have hsh : splitHash ('/' :: (t ++ (queryPart u.query ++ fragPart u.fragment))) =
      (('/' :: t) ++ queryPart u.query, u.fragment) := by
    cases hfv : u.fragment with
    | none =>
      rw [fragPart]
      have hx : '/' :: (t ++ (queryPart u.query ++ [])) =
          ('/' :: t) ++ queryPart u.query := by simp
      rw [hx, splitHash_no_hash hbh]
    | some f =>
      rw [fragPart]
      have hx : '/' :: (t ++ (queryPart u.query ++ '#' :: f)) =
          (('/' :: t) ++ queryPart u.query) ++ '#' :: f := by simp
      rw [hx, splitHash_append hbh]
  rw [hsh]
  try simp only []
  have hsq : splitQst (('/' :: t) ++ queryPart u.query) =
      ('/' :: t, u.query) := by
    cases hqv : u.query with
    | none =>
      rw [queryPart]
      have hx : ('/' :: t) ++ ([] : List Char) = '/' :: t := by simp
      rw [hx, splitQst_no_q hpnq]
    | some ps =>
      rw [queryPart, splitQst_append hpnq,
        parseParams_serializeParams (h.query_ok ps hqv)]
  rw [hsq]
  try simp only []
  rw [if_neg (by simp)]
  rw [← hpath, ← hsch]



/-! ### Every parsed URL is well-formed -/

theorem delim_pred_parts {c : Char}
    (h : (c == '/' || c == '?' || c == '#') = false) :
    c ≠ '/' ∧ c ≠ '?' ∧ c ≠ '#' := by
  simp only [Bool.or_eq_false_iff, beq_eq_false_iff_ne] at h
  exact ⟨h.1.1, h.1.2, h.2⟩

theorem lowerList_chars_no_delim {l : List Char}
    (h : ∀ c ∈ l, c ≠ '/' ∧ c ≠ '?' ∧ c ≠ '#' ∧ c ≠ '@') :
    ∀ c ∈ lowerList l, c ≠ '/' ∧ c ≠ '?' ∧ c ≠ '#' ∧ c ≠ '@' := by
  intro c hc
  rw [lowerList, List.mem_map] at hc
  obtain ⟨c', hc', rfl⟩ := hc
  obtain ⟨d1, d2, d3, d4⟩ := h c' hc'
  exact ⟨fun he => d1 ((lowerChar_eq_special (special_range '/' (by simp))).mp he),
    fun he => d2 ((lowerChar_eq_special (special_range '?' (by simp))).mp he),
    fun he => d3 ((lowerChar_eq_special (special_range '#' (by simp))).mp he),
    fun he => d4 ((lowerChar_eq_special (special_range '@' (by simp))).mp he)⟩

theorem not_mem_lowerList_bracket1 {l : List Char} (h : '[' ∉ l) :
    '[' ∉ lowerList l :=
  not_mem_lowerList_special (by simp) h

theorem not_mem_lowerList_bracket2 {l : List Char} (h : ']' ∉ l) :
    ']' ∉ lowerList l :=
  not_mem_lowerList_special (by simp) h

theorem not_mem_lowerList_colon {l : List Char} (h : ':' ∉ l) :
    ':' ∉ lowerList l :=
  not_mem_lowerList_special (by simp) h

theorem parseParams_wf {q : List Char} (hq : '#' ∉ q) :
    ∀ pr ∈ parseParams q, paramOK pr := by
  intro pr hpr
  rw [parseParams] at hpr
  obtain ⟨piece, hpiece, hpp⟩ := List.mem_filterMap.mp hpr
  have hamp : '&' ∉ piece := splitAll_mem_not_sep hpiece
  have hsub : ∀ x ∈ piece, x ∈ q := splitAll_mem_subset hpiece
  have hhash : '#' ∉ piece := fun hm => hq (hsub _ hm)
  rw [parseParamPiece] at hpp
  by_cases he : piece.isEmpty = true
  · rw [if_pos he] at hpp
    simp at hpp
  · rw [if_neg he] at hpp
    cases hsp : splitFirst '=' piece with
    | none =>
      rw [hsp] at hpp
      have heq : (piece, ([] : List Char)) = pr := by simpa using hpp
      rw [← heq]
      exact ⟨splitFirst_not_mem hsp, hamp, hhash, by simp, by simp⟩
    | some nv =>
      obtain ⟨n, v⟩ := nv
      rw [hsp] at hpp
      have heq : (n, v) = pr := by simpa using hpp
      rw [← heq]
      obtain ⟨hpe, hne⟩ := splitFirst_eq_some hsp
      have hnsub : ∀ x ∈ n, x ∈ piece := by
        intro x hx
        rw [hpe]
        exact List.mem_append.mpr (Or.inl hx)
      have hvsub : ∀ x ∈ v, x ∈ piece := by
        intro x hx
        rw [hpe]
        exact List.mem_append.mpr (Or.inr (List.mem_cons_of_mem _ hx))
      exact ⟨hne, fun hm => hamp (hnsub _ hm), fun hm => hhash (hnsub _ hm),
        fun hm => hamp (hvsub _ hm), fun hm => hhash (hvsub _ hm)⟩

theorem splitHash_fst (T : List Char) :
    '#' ∉ (splitHash T).1 ∧ ∃ r, T = (splitHash T).1 ++ r := by
  rw [splitHash]
  cases hsp : splitFirst '#' T with
  | none => exact ⟨splitFirst_not_mem hsp, [], by simp⟩
  | some bf =>
    obtain ⟨b, f⟩ := bf
    obtain ⟨hT, hnm⟩ := splitFirst_eq_some hsp
    exact ⟨hnm, '#' :: f, hT⟩

theorem splitQst_fst (b : List Char) :
    '?' ∉ (splitQst b).1 ∧ ∃ r, b = (splitQst b).1 ++ r := by
  rw [splitQst]
  cases hsp : splitFirst '?' b with
  | none => exact ⟨splitFirst_not_mem hsp, [], by simp⟩
  | some pq =>
    obtain ⟨p, q⟩ := pq
    obtain ⟨hb, hnm⟩ := splitFirst_eq_some hsp
    exact ⟨hnm, '?' :: q, hb⟩

theorem splitQst_snd_wf {b : List Char} (hb : '#' ∉ b) :
    ∀ ps, (splitQst b).2 = some ps → ∀ pr ∈ ps, paramOK pr := by
  intro ps hps
  rw [splitQst] at hps
  cases hsp : splitFirst '?' b with
  | none => rw [hsp] at hps; simp at hps
  | some pq =>
    obtain ⟨p, q⟩ := pq
    rw [hsp] at hps
    have hqs : parseParams q = ps := by simpa using hps
    obtain ⟨hb2, h2⟩ := splitFirst_eq_some hsp
    have hqh : '#' ∉ q := by
      intro hm
      exact hb (hb2 ▸ List.mem_append.mpr (Or.inr (List.mem_cons_of_mem _ hm)))
    rw [← hqs]
    exact parseParams_wf hqh

theorem elideDefaultPort_idem (s : List Char) (p : Option (List Char)) :
    elideDefaultPort s (elideDefaultPort s p) = elideDefaultPort s p := by
  by_cases hc : (s = "http".data ∧ p = some "80".data) ∨
      (s = "https".data ∧ p = some "443".data)
  · rw [show elideDefaultPort s p = none from by rw [elideDefaultPort, if_pos hc]]
    rw [elideDefaultPort, if_neg (by
      rintro (⟨h1, h2⟩ | ⟨h1, h2⟩) <;> simp at h2)]
  · rw [show elideDefaultPort s p = p from by rw [elideDefaultPort, if_neg hc]]
    rw [elideDefaultPort, if_neg hc]

theorem parseAuthority_wf {l host : List Char} {port : Option (List Char)}
    (h : parseAuthority l = some (host, port))
    (hl : ∀ c ∈ l, (c == '/' || c == '?' || c == '#') = false) :
    (∀ c ∈ host, c ≠ '/' ∧ c ≠ '?' ∧ c ≠ '#' ∧ c ≠ '@') ∧
    (plainHost host ∨ bracketHost host) ∧
    (∀ p, port = some p → canonicalPort p = true) := by
  rw [parseAuthority.eq_def] at h
  split at h
  · exact absurd h (by simp)
  next hat =>
    split at h
    · exact absurd h (by simp)
    next c rest =>
      have hat2 : '@' ∉ c :: rest := fun hm => hat (contains_iff.mpr hm)
      have hlc : ∀ x ∈ c :: rest, x ≠ '/' ∧ x ≠ '?' ∧ x ≠ '#' ∧ x ≠ '@' := by
        intro x hx
        obtain ⟨d1, d2, d3⟩ := delim_pred_parts (hl x hx)
        exact ⟨d1, d2, d3, fun he => hat2 (he ▸ hx)⟩
      split at h
      · -- bracket case, c = '['
        next hcb =>
        split at h
        · exact absurd h (by simp)
        next inside after hsp =>
          split at h
          · exact absurd h (by simp)
          next hbad =>
            obtain ⟨hrest, hnmI⟩ := splitFirst_eq_some hsp
            have hIne : inside ≠ [] := by
              intro he
              exact hbad (by simp [he])
            have hIb : '[' ∉ inside := by
              intro hm
              exact hbad (by rw [Bool.or_eq_true]; exact Or.inr (contains_iff.mpr hm))
            have hIsub : ∀ x ∈ inside, x ∈ c :: rest := by
              intro x hx
              rw [hrest]
              exact List.mem_cons_of_mem c (List.mem_append.mpr (Or.inl hx))
            have hhostchars : ∀ x ∈ '[' :: lowerList inside ++ [']'],
                x ≠ '/' ∧ x ≠ '?' ∧ x ≠ '#' ∧ x ≠ '@' := by
              intro x hx
              rcases List.mem_cons.mp hx with rfl | hx2
              · exact ⟨by decide, by decide, by decide, by decide⟩
              · rcases List.mem_append.mp hx2 with hx3 | hx4
                · exact lowerList_chars_no_delim
                    (fun y hy => hlc y (hIsub y hy)) x hx3
                · rcases List.mem_singleton.mp hx4 with rfl
                  exact ⟨by decide, by decide, by decide, by decide⟩
            have hbr : bracketHost ('[' :: lowerList inside ++ [']']) :=
              ⟨lowerList inside, rfl, lowerList_ne_nil hIne,
                not_mem_lowerList_bracket1 hIb,
                not_mem_lowerList_bracket2 hnmI, lowerList_idem inside⟩
            split at h
            · -- after = []
              simp only [Option.some.injEq, Prod.mk.injEq] at h
              obtain ⟨hh, hp⟩ := h
              rw [← hh, ← hp]
              exact ⟨hhostchars, Or.inr hbr, fun p hp2 => by simp at hp2⟩
            next a portCs =>
              split at h
              · -- a = ':'
                split at h
                · -- empty port
                  simp only [Option.some.injEq, Prod.mk.injEq] at h
                  obtain ⟨hh, hp⟩ := h
                  rw [← hh, ← hp]
                  exact ⟨hhostchars, Or.inr hbr, fun p hp2 => by simp at hp2⟩
                · split at h
                  next hcp =>
                    simp only [Option.some.injEq, Prod.mk.injEq] at h
                    obtain ⟨hh, hp⟩ := h
                    rw [← hh, ← hp]
                    refine ⟨hhostchars, Or.inr hbr, fun p hp2 => ?_⟩
                    have hpe : portCs = p := by simpa using hp2
                    exact hpe ▸ hcp
                  · exact absurd h (by simp)
              · exact absurd h (by simp)
      · -- plain case, c ≠ '['
        next hcb =>
        split at h
        next hsp =>
          -- no colon
          split at h
          · exact absurd h (by simp)
          next hbad =>
            simp only [Bool.or_eq_true, not_or] at hbad
            have hnb1 : '[' ∉ c :: rest :=
              fun hm => hbad.1 (contains_iff.mpr hm)
            have hnb2 : ']' ∉ c :: rest :=
              fun hm => hbad.2 (contains_iff.mpr hm)
            simp only [Option.some.injEq, Prod.mk.injEq] at h
            obtain ⟨hh, hp⟩ := h
            rw [← hh, ← hp]
            refine ⟨lowerList_chars_no_delim hlc, Or.inl ?_,
              fun p hp2 => by simp at hp2⟩
            exact ⟨lowerList_ne_nil (by simp), not_mem_lowerList_bracket1 hnb1,
              not_mem_lowerList_bracket2 hnb2,
              not_mem_lowerList_colon (splitFirst_not_mem hsp),
              lowerList_idem _⟩
        next hd portCs hsp =>
          split at h
          · exact absurd h (by simp)
          next hbad =>
            simp only [Bool.or_eq_true, not_or] at hbad
            obtain ⟨⟨hbe, hbb1⟩, hbb2⟩ := hbad
            obtain ⟨hdecomp, hcolhd⟩ := splitFirst_eq_some hsp
            have hdne : hd ≠ [] := by
              intro he
              exact hbe (by simp [he])
            have hdb1 : '[' ∉ hd := fun hm => hbb1 (contains_iff.mpr hm)
            have hdb2 : ']' ∉ hd := fun hm => hbb2 (contains_iff.mpr hm)
            have hdsub : ∀ x ∈ hd, x ∈ c :: rest := by
              intro x hx
              rw [hdecomp]
              exact List.mem_append.mpr (Or.inl hx)
            have hplain : plainHost (lowerList hd) :=
              ⟨lowerList_ne_nil hdne, not_mem_lowerList_bracket1 hdb1,
                not_mem_lowerList_bracket2 hdb2, not_mem_lowerList_colon hcolhd,
                lowerList_idem _⟩
            have hchars : ∀ x ∈ lowerList hd,
                x ≠ '/' ∧ x ≠ '?' ∧ x ≠ '#' ∧ x ≠ '@' :=
              lowerList_chars_no_delim (fun y hy => hlc y (hdsub y hy))
            split at h
            · simp only [Option.some.injEq, Prod.mk.injEq] at h
              obtain ⟨hh, hp⟩ := h
              rw [← hh, ← hp]
              exact ⟨hchars, Or.inl hplain, fun p hp2 => by simp at hp2⟩
            · split at h
              next hcp =>
                simp only [Option.some.injEq, Prod.mk.injEq] at h
                obtain ⟨hh, hp⟩ := h
                rw [← hh, ← hp]
                refine ⟨hchars, Or.inl hplain, fun p hp2 => ?_⟩
                have hpe : portCs = p := by simpa using hp2
                exact hpe ▸ hcp
              · exact absurd h (by simp)


theorem elideDefaultPort_some {s p : List Char} {po : Option (List Char)}
    (h : elideDefaultPort s po = some p) : po = some p := by
  rw [elideDefaultPort] at h
  split at h
  · exact absurd h (by simp)
  · exact h

/-- Every URL record produced by the parser satisfies the well-formedness
invariant. -/
theorem parse_wf {l : List Char} {u : URLRec}
    (h : parseUrlChars l = some u) : WFURL u := by
  rw [parseUrlChars.eq_def] at h
  split at h
  · exact absurd h (by simp)
  next schemeCs rest hsp =>
    split at h
    · exact absurd h (by simp)
    next c0 cs0 =>
      split at h
      · exact absurd h (by simp)
      next h0 =>
        split at h
        · exact absurd h (by simp)
        next hall =>
          have ha : c0.isAlpha = true := not_not.mp h0
          have has : (c0 :: cs0).all isSchemeChar = true := not_not.mp hall
          split at h
          next rest2 =>
            split at h
            next auth rest3 hbw =>
              split at h
              · exact absurd h (by simp)
              next host port hpa =>
                split at h
                next beforeHash frag hsh =>
                  split at h
                  next pathCs query hsq =>
                    have hu : URLRec.mk (lowerList (c0 :: cs0)) host
                        (elideDefaultPort (lowerList (c0 :: cs0)) port)
                        (if pathCs.isEmpty then "/".data else pathCs)
                        query frag = u := by
                      simpa using h
                    subst hu
                    obtain ⟨hbwe, hbw1, hbw2⟩ :=
                      breakWhen_spec (fun c => c == '/' || c == '?' || c == '#')
                        rest2
                    rw [hbw] at hbw1 hbw2
                    have hauth := parseAuthority_wf hpa (fun c hc => hbw1 c hc)
                    have hsh1 := splitHash_fst rest3
                    rw [hsh] at hsh1
                    obtain ⟨hnh0, r1, hr1⟩ := hsh1
                    have hnh : '#' ∉ beforeHash := hnh0
                    have hr1e : rest3 = beforeHash ++ r1 := hr1
                    have hsq1 := splitQst_fst beforeHash
                    rw [hsq] at hsq1
                    obtain ⟨hnq0, r2, hr2⟩ := hsq1
                    have hnq : '?' ∉ pathCs := hnq0
                    have hr2e : beforeHash = pathCs ++ r2 := hr2
                    refine ⟨?_, ?_, ?_, ?_, ?_, ?_, ?_, ?_, ?_, ?_, ?_, ?_⟩
                    · exact lowerList_ne_nil (by simp)
                    · intro c cs hc
                      rw [show lowerList (c0 :: cs0) =
                        lowerChar c0 :: lowerList cs0 from rfl] at hc
                      injection hc with h1 h2
                      exact h1 ▸ lowerChar_isAlpha ha
                    · rw [lowerList, List.all_eq_true]
                      intro x hx
                      rw [List.mem_map] at hx
                      obtain ⟨y, hy, rfl⟩ := hx
                      exact lowerChar_isSchemeChar (List.all_eq_true.mp has y hy)
                    · exact lowerList_idem _
                    · exact hauth.1
                    · exact hauth.2.1
                    · intro p hp
                      exact hauth.2.2 p (elideDefaultPort_some hp)
                    · exact elideDefaultPort_idem _ _
                    · by_cases hpe : pathCs.isEmpty = true
                      · exact ⟨[], by rw [if_pos hpe]⟩
                      · rw [if_neg hpe]
                        cases hpc : pathCs with
                        | nil => exact absurd (by rw [hpc]; rfl) hpe
                        | cons p0 pt =>
                          have hmem : p0 ∈ pathCs := by
                            rw [hpc]
                            exact List.mem_cons_self p0 pt
                          have hrest3 : rest3 = p0 :: (pt ++ r2 ++ r1) := by
                            rw [hr1e, hr2e, hpc]
                            simp
                          have hp0 : (p0 == '/' || p0 == '?' || p0 == '#') =
                              true :=
                            hbw2 p0 (pt ++ r2 ++ r1) hrest3
                          have hq : p0 ≠ '?' := fun he => hnq (he ▸ hmem)
                          have hh : p0 ≠ '#' := fun he => hnh (by
                            rw [hr2e]
                            exact List.mem_append.mpr (Or.inl (he ▸ hmem)))
                          have hp0d : p0 = '/' ∨ p0 = '?' ∨ p0 = '#' := by
                            simpa [or_assoc] using hp0
                          rcases hp0d with he | he | he
                          · exact ⟨pt, by rw [he]⟩
                          · exact absurd he hq
                          · exact absurd he hh
                    · by_cases hpe : pathCs.isEmpty = true
                      · rw [if_pos hpe]
                        show '?' ∉ "/".data
                        decide
                      · rw [if_neg hpe]
                        exact hnq
                    · by_cases hpe : pathCs.isEmpty = true
                      · rw [if_pos hpe]
                        show '#' ∉ "/".data
                        decide
                      · rw [if_neg hpe]
                        intro hm
                        exact hnh (by
                          rw [hr2e]
                          exact List.mem_append.mpr (Or.inl hm))
                    · intro ps hps
                      refine splitQst_snd_wf hnh ps ?_
                      rw [hsq]
                      exact hps
          all_goals exact absurd h (by simp)


/-! ### Stability of the record-level normalization steps -/

theorem filter_nonTracking_idem (ps : List (List Char × List Char)) :
    (ps.filter (fun p => ¬ isTrackingParam p.1)).filter
      (fun p => ¬ isTrackingParam p.1) =
      ps.filter (fun p => ¬ isTrackingParam p.1) :=
  List.filter_eq_self.mpr (fun _ ha => (List.mem_filter.mp ha).2)

theorem filterTracking_idem (q : Option (List (List Char × List Char))) :
    filterTracking (filterTracking q) = filterTracking q := by
  cases q with
  | none => rfl
  | some ps =>
    simp only [filterTracking]
    by_cases hc : (List.filter (fun p => ¬ isTrackingParam p.1) ps).isEmpty =
        true ∧ ¬ ps.isEmpty = true
    · rw [if_pos hc]
    · rw [if_neg hc]
      simp only [filterTracking]
      rw [filter_nonTracking_idem]
      rw [if_neg (fun h => h.2 h.1)]

theorem stripWwwHost_ne_nil {h : List Char} (hne : h ≠ []) :
    stripWwwHost h ≠ [] := by
  simp only [stripWwwHost]
  split
  · split
    · exact hne
    next he => exact fun hc => he (by simp [hc])
  · split
    · exact hne
    · exact hne

theorem stripWwwHost_subset {h : List Char} : ∀ c ∈ stripWwwHost h, c ∈ h := by
  simp only [stripWwwHost]
  split
  · split
    · exact fun c hc => hc
    · exact fun c hc => List.mem_of_mem_drop hc
  · split
    · exact fun c hc => hc
    · exact fun c hc => hc

theorem www_not_prefix_bracket (t : List Char) :
    "www.".data.isPrefixOf ('[' :: t) = false := by
  show List.isPrefixOf ('w' :: 'w' :: 'w' :: '.' :: []) ('[' :: t) = false
  rw [List.isPrefixOf]
  simp

theorem stripWwwHost_eq_self {h : List Char}
    (hp : "www.".data.isPrefixOf h = false) : stripWwwHost h = h := by
  simp only [stripWwwHost, hp]
  simp

theorem lowerList_bracket {mid : List Char} (hlm : lowerList mid = mid) :
    lowerList ('[' :: mid ++ [']']) = '[' :: mid ++ [']'] := by
  have h1 : lowerChar '[' = '[' := by decide
  have h2 : lowerChar ']' = ']' := by decide
  have hlm2 : mid.map lowerChar = mid := hlm
  simp [lowerList, List.map_append, h1, h2, hlm2]

/-- The record-level normalization preserves the parser's invariant. -/
theorem normalizeRec_wf {u : URLRec} (hwf : WFURL u) : WFURL (normalizeRec u) := by
  have hhost : (normalizeRec u).hostname =
      lowerList (stripWwwHost u.hostname) := rfl
  have hport : (normalizeRec u).port =
      (if u.port = some "443".data then none else u.port) := rfl
  refine ⟨?_, ?_, ?_, ?_, ?_, ?_, ?_, ?_, ?_, ?_, ?_, ?_⟩
  · show "https".data ≠ []
    decide
  · show ∀ c cs, "https".data = c :: cs → c.isAlpha = true
    intro c cs hc
    rw [show ("https".data : List Char) = 'h' :: ['t', 't', 'p', 's']
      from rfl] at hc
    injection hc with h1 h2
    rw [← h1]
    decide
  · show ("https".data).all isSchemeChar = true
    decide
  · show lowerList "https".data = "https".data
    decide
  · rw [hhost]
    exact lowerList_chars_no_delim
      (fun c hc => hwf.host_no_delims c (stripWwwHost_subset c hc)) 
  · rw [hhost]
    rcases hwf.host_ok with hpl | hbr
    · exact Or.inl ⟨lowerList_ne_nil (stripWwwHost_ne_nil hpl.1),
        not_mem_lowerList_bracket1
          (fun hm => hpl.2.1 (stripWwwHost_subset _ hm)),
        not_mem_lowerList_bracket2
          (fun hm => hpl.2.2.1 (stripWwwHost_subset _ hm)),
        not_mem_lowerList_colon
          (fun hm => hpl.2.2.2.1 (stripWwwHost_subset _ hm)),
        lowerList_idem _⟩
    · obtain ⟨mid, heq, hne, hb1, hb2, hlm⟩ := hbr
      have hstrip : stripWwwHost u.hostname = u.hostname := by
        rw [heq]
        exact stripWwwHost_eq_self (www_not_prefix_bracket _)
      rw [hstrip, heq, lowerList_bracket hlm]
      exact Or.inr ⟨mid, rfl, hne, hb1, hb2, hlm⟩
  · intro p hp
    rw [hport] at hp
    by_cases h443 : u.port = some "443".data
    · rw [if_pos h443] at hp
      exact absurd hp (by simp)
    · rw [if_neg h443] at hp
      exact hwf.port_ok p hp
  · show elideDefaultPort "https".data (normalizeRec u).port =
      (normalizeRec u).port
    rw [elideDefaultPort]
    refine if_neg ?_
    rintro (⟨h1, h2⟩ | ⟨h1, h2⟩)
    · exact absurd h1 (by decide)
    · rw [hport] at h2
      by_cases h443 : u.port = some "443".data
      · rw [if_pos h443] at h2
        exact absurd h2 (by simp)
      · rw [if_neg h443] at h2
        exact h443 h2
  · exact hwf.path_head
  · exact hwf.path_no_q
  · exact hwf.path_no_h
  · intro ps hps
    have hps2 : filterTracking u.query = some ps := hps
    cases hq : u.query with
    | none =>
      rw [hq] at hps2
      exact absurd hps2 (by simp [filterTracking])
    | some qs =>
      rw [hq] at hps2
      simp only [filterTracking] at hps2
      split at hps2
      · exact absurd hps2 (by simp)
      · have hf : qs.filter (fun p => ¬ isTrackingParam p.1) = ps := by
          simpa using hps2
        intro pr hpr
        rw [← hf] at hpr
        exact hwf.query_ok qs hq pr (List.mem_filter.mp hpr).1

/-- A record already in fully normalized form is a fixed point of
`normalizeRec`. -/
theorem normalizeRec_eq_self {u : URLRec}
    (hs : u.scheme = "https".data) (hp : u.port ≠ some "443".data)
    (hw : stripWwwHost u.hostname = u.hostname)
    (hl : lowerList u.hostname = u.hostname)
    (hq : filterTracking u.query = u.query)
    (hf : u.fragment = none) :
    normalizeRec u = u := by
  show URLRec.mk "https".data (lowerList (stripWwwHost u.hostname))
      (if u.port = some "443".data then none else u.port) u.path
      (filterTracking u.query) none =
    URLRec.mk u.scheme u.hostname u.port u.path u.query u.fragment
  rw [hs, hw, hl, hq, hf, if_neg hp]

/-- `normalizeRec` is idempotent whenever the once-stripped host does not
still carry a `www.` prefix (the `www.www.` counterexample violates this). -/
theorem normalizeRec_idem {u : URLRec}
    (hw : stripWwwHost (normalizeRec u).hostname = (normalizeRec u).hostname) :
    normalizeRec (normalizeRec u) = normalizeRec u := by
  refine normalizeRec_eq_self rfl ?_ hw ?_ ?_ rfl
  · show (if u.port = some "443".data then none else u.port) ≠ some "443".data
    by_cases h443 : u.port = some "443".data
    · rw [if_pos h443]
      simp
    · rw [if_neg h443]
      exact h443
  · exact lowerList_idem _
  · exact filterTracking_idem _


/-! ### Shape of the serialized URL around its last character -/

theorem exists_append_last {α : Type} (l : List α) (h : l ≠ []) :
    ∃ init last, l = init ++ [last] := by
  induction l with
  | nil => exact absurd rfl h
  | cons x xs ih =>
    cases xs with
    | nil => exact ⟨[], x, rfl⟩
    | cons y ys =>
      obtain ⟨init, last, he⟩ := ih (by simp)
      exact ⟨x :: init, last, by rw [List.cons_append, ← he]⟩

theorem stripWwwHost_eq_of_length {h : List Char}
    (hl : (stripWwwHost h).length = h.length) : stripWwwHost h = h := by
  by_cases hpre : "www.".data.isPrefixOf h = true
  · by_cases hemp : (List.drop 4 h).isEmpty = true
    · simp [stripWwwHost, hpre, hemp]
    · have hs : stripWwwHost h = List.drop 4 h := by
        simp [stripWwwHost, hpre, hemp]
      rw [hs, List.length_drop] at hl
      have h0 : h.length = 0 := by omega
      have hnil : h = [] := List.length_eq_zero.mp h0
      exact absurd (by simp [hnil]) hemp
  · exact stripWwwHost_eq_self (by rw [Bool.eq_false_iff]; exact hpre)

theorem getLast?_cons_ne {x : Char} {xs : List Char} (h : xs ≠ []) :
    (x :: xs).getLast? = xs.getLast? :=
  List.getLast?_append_of_ne_nil [x] h

theorem dropLast_cons_ne {x : Char} {xs : List Char} (h : xs ≠ []) :
    (x :: xs).dropLast = x :: xs.dropLast :=
  List.dropLast_append_of_ne_nil [x] h

theorem serializeChars_qnone {u : URLRec} (hq : u.query = none)
    (hf : u.fragment = none) :
    serializeChars u =
      (u.scheme ++ [':', '/', '/'] ++ u.hostname ++ portPart u.port) ++
        u.path := by
  rw [serializeChars, hq, hf]
  simp [queryPart, fragPart]

theorem serializeChars_qsome {u : URLRec} {ps : List (List Char × List Char)}
    (hq : u.query = some ps) (hf : u.fragment = none) :
    serializeChars u =
      (u.scheme ++ [':', '/', '/'] ++ u.hostname ++ portPart u.port ++
        u.path) ++ '?' :: serializeParams ps := by
  rw [serializeChars, hq, hf]
  simp [queryPart, fragPart]

theorem serializeParams_snoc (init : List (List Char × List Char))
    (nm v : List Char) :
    serializeParams (init ++ [(nm, v)]) =
      (if init.isEmpty then [] else serializeParams init ++ ['&']) ++
        nm ++ '=' :: v := by
  induction init with
  | nil => simp [serializeParams]
  | cons p init' ih =>
    cases init' with
    | nil =>
      rw [List.cons_append, List.nil_append,
        serializeParams_cons_cons p (nm, v) []]
      simp [serializeParams, List.append_assoc]
    | cons q init'' =>
      rw [List.cons_append] at ih
      rw [List.cons_append, List.cons_append,
        serializeParams_cons_cons p q (init'' ++ [(nm, v)]), ih,
        serializeParams_cons_cons p q init'']
      simp [List.append_assoc]

theorem filterTracking_some_elems {ps : List (List Char × List Char)}
    (h : filterTracking (some ps) = some ps) :
    ∀ pr ∈ ps, isTrackingParam pr.1 = false := by
  simp only [filterTracking] at h
  split at h
  · exact absurd h (by simp)
  · have hf : ps.filter (fun p => ¬ isTrackingParam p.1) = ps := by
      simpa using h
    intro pr hpr
    have := List.filter_eq_self.mp hf pr hpr
    simpa using this

theorem filterTracking_some_of_elems {ps : List (List Char × List Char)}
    (h : ∀ pr ∈ ps, isTrackingParam pr.1 = false) :
    filterTracking (some ps) = some ps := by
  simp only [filterTracking]
  have hf : ps.filter (fun p => ¬ isTrackingParam p.1) = ps :=
    List.filter_eq_self.mpr (fun a ha => by simp [h a ha])
  rw [hf, if_neg (fun hc => hc.2 hc.1)]


theorem getLast?_append_ne {a b : List Char} (hb : b ≠ []) :
    (a ++ b).getLast? = b.getLast? :=
  List.getLast?_append_of_ne_nil a hb

theorem dropLast_append_ne {a b : List Char} (hb : b ≠ []) :
    (a ++ b).dropLast = a ++ b.dropLast :=
  List.dropLast_append_of_ne_nil a hb

/-- Query-less case of the fixed-point argument: trimming the trailing slash
off the path yields a string that re-normalizes to itself. -/
theorem trim_fix_qnone {sc host pa : List Char} {po : Option (List Char)}
    (hwfn : WFURL ⟨sc, host, po, pa, none, none⟩)
    (hstab : normalizeRec ⟨sc, host, po, pa, none, none⟩ =
      ⟨sc, host, po, pa, none, none⟩)
    (hnd : pa.getLast? = some '/' → pa.dropLast.getLast? = some '/' →
      pa.dropLast = "/".data)
    (h2 : pa ≠ "/".data)
    (h1 : (serializeChars ⟨sc, host, po, pa, none, none⟩).getLast? =
      some '/') :
    normalizeChars
        ((serializeChars ⟨sc, host, po, pa, none, none⟩).dropLast) =
      some ((serializeChars ⟨sc, host, po, pa, none, none⟩).dropLast) := by
  have hser : serializeChars (⟨sc, host, po, pa, none, none⟩ : URLRec) =
      (sc ++ [':', '/', '/'] ++ host ++ portPart po) ++ pa :=
    serializeChars_qnone rfl rfl
  obtain ⟨t, ht0⟩ := hwfn.path_head
  have ht : pa = '/' :: t := ht0
  have hpne : pa ≠ [] := by rw [ht]; simp
  have h1p : pa.getLast? = some '/' := by
    rw [hser, getLast?_append_ne hpne] at h1
    exact h1
  have htne : t ≠ [] := by
    intro hc
    rw [hc] at ht
    exact h2 ht
  have hdrop : pa.dropLast = '/' :: t.dropLast := by
    rw [ht]
    exact dropLast_cons_ne htne
  have hdne : pa.dropLast ≠ [] := by rw [hdrop]; simp
  have hsch : sc = "https".data := (congrArg URLRec.scheme hstab).symm
  have hhh : lowerList (stripWwwHost host) = host :=
    congrArg URLRec.hostname hstab
  have hw : stripWwwHost host = host :=
    stripWwwHost_eq_of_length (by
      have hlen := congrArg List.length hhh
      simpa [lowerList] using hlen)
  have hlh : lowerList host = host := by
    conv_lhs => rw [← hw]
    exact hhh
  have hpo : po ≠ some "443".data := by
    intro hc
    have hpp : (if po = some "443".data then none else po) = po :=
      congrArg URLRec.port hstab
    rw [if_pos hc, hc] at hpp
    exact absurd hpp (by simp)
  have hser2 : serializeChars (⟨sc, host, po, pa.dropLast, none, none⟩ :
      URLRec) = (sc ++ [':', '/', '/'] ++ host ++ portPart po) ++
        pa.dropLast :=
    serializeChars_qnone rfl rfl
  have hLd : (serializeChars (⟨sc, host, po, pa, none, none⟩ :
      URLRec)).dropLast =
      serializeChars (⟨sc, host, po, pa.dropLast, none, none⟩ : URLRec) := by
    rw [hser, dropLast_append_ne hpne, hser2]
  have hwf2 : WFURL (⟨sc, host, po, pa.dropLast, none, none⟩ : URLRec) := by
    refine ⟨hwfn.scheme_nonempty, hwfn.scheme_head_alpha, hwfn.scheme_chars,
      hwfn.scheme_lower, hwfn.host_no_delims, hwfn.host_ok, hwfn.port_ok,
      hwfn.port_nodefault, ⟨t.dropLast, hdrop⟩, ?_, ?_, ?_⟩
    · exact fun hm => hwfn.path_no_q ((List.dropLast_sublist _).subset hm)
    · exact fun hm => hwfn.path_no_h ((List.dropLast_sublist _).subset hm)
    · intro ps hps
      exact absurd hps (by simp)
  have hstab2 : normalizeRec (⟨sc, host, po, pa.dropLast, none, none⟩ :
      URLRec) = ⟨sc, host, po, pa.dropLast, none, none⟩ :=
    normalizeRec_eq_self hsch hpo hw hlh rfl rfl
  have hps2 : parseUrlChars (serializeChars (⟨sc, host, po, pa.dropLast,
      none, none⟩ : URLRec)) =
      some (⟨sc, host, po, pa.dropLast, none, none⟩ : URLRec) :=
    parse_serialize hwf2
  have hgl2 : (serializeChars (⟨sc, host, po, pa.dropLast, none, none⟩ :
      URLRec)).getLast? = pa.dropLast.getLast? := by
    rw [hser2, getLast?_append_ne hdne]
  rw [hLd, normalizeChars.eq_def, hps2]
  simp only [hstab2]
  split
  next hcc =>
    have hga : pa.dropLast.getLast? = some '/' := hgl2 ▸ hcc.1
    exact absurd (hnd h1p hga) hcc.2
  next => rfl

/-- Case with a query: the trailing-slash trim eats one `/` off the final
parameter value, and the result re-normalizes to itself as long as that value
did not end in `//`. -/
theorem trim_fix_qsome {sc host pa : List Char} {po : Option (List Char)}
    {ps : List (List Char × List Char)}
    (hwfn : WFURL ⟨sc, host, po, pa, some ps, none⟩)
    (hstab : normalizeRec ⟨sc, host, po, pa, some ps, none⟩ =
      ⟨sc, host, po, pa, some ps, none⟩)
    (hnd : ∀ init nm v, ps = init ++ [(nm, v)] →
      v.getLast? = some '/' → v.dropLast.getLast? ≠ some '/')
    (h1 : (serializeChars ⟨sc, host, po, pa, some ps, none⟩).getLast? =
      some '/') :
    normalizeChars
        ((serializeChars ⟨sc, host, po, pa, some ps, none⟩).dropLast) =
      some ((serializeChars ⟨sc, host, po, pa, some ps, none⟩).dropLast) := by
  have hser : serializeChars (⟨sc, host, po, pa, some ps, none⟩ : URLRec) =
      (sc ++ [':', '/', '/'] ++ host ++ portPart po ++ pa) ++
        '?' :: serializeParams ps :=
    serializeChars_qsome rfl rfl
  have hpsne : ps ≠ [] := by
    intro hc
    rw [hser, hc, getLast?_append_ne (by simp)] at h1
    simp [serializeParams] at h1
  obtain ⟨init, g, hdec⟩ := exists_append_last ps hpsne
  obtain ⟨nm, v⟩ := g
  have hsp : serializeParams ps =
      (if init.isEmpty then [] else serializeParams init ++ ['&']) ++
        nm ++ '=' :: v := by
    rw [hdec]
    exact serializeParams_snoc init nm v
  have hL : serializeChars (⟨sc, host, po, pa, some ps, none⟩ : URLRec) =
      ((sc ++ [':', '/', '/'] ++ host ++ portPart po ++ pa) ++
        '?' :: ((if init.isEmpty then [] else serializeParams init ++ ['&']) ++
          nm)) ++ '=' :: v := by
    rw [hser, hsp]
    simp [List.append_assoc]
  have hgl1 : (serializeChars (⟨sc, host, po, pa, some ps, none⟩ :
      URLRec)).getLast? = ('=' :: v).getLast? := by
    rw [hL, getLast?_append_ne (List.cons_ne_nil _ _)]
  have hvne : v ≠ [] := by
    intro hc
    rw [hgl1, hc] at h1
    simp at h1
  have hvl : v.getLast? = some '/' := by
    rw [hgl1, getLast?_cons_ne hvne] at h1
    exact h1
  have hsch : sc = "https".data := (congrArg URLRec.scheme hstab).symm
  have hhh : lowerList (stripWwwHost host) = host :=
    congrArg URLRec.hostname hstab
  have hw : stripWwwHost host = host :=
    stripWwwHost_eq_of_length (by
      have hlen := congrArg List.length hhh
      simpa [lowerList] using hlen)
  have hlh : lowerList host = host := by
    conv_lhs => rw [← hw]
    exact hhh
  have hpo : po ≠ some "443".data := by
    intro hc
    have hpp : (if po = some "443".data then none else po) = po :=
      congrArg URLRec.port hstab
    rw [if_pos hc, hc] at hpp
    exact absurd hpp (by simp)
  have hqstab : filterTracking (some ps) = some ps :=
    congrArg URLRec.query hstab
  have htrack := filterTracking_some_elems hqstab
  have hmemlast : (nm, v) ∈ ps := by
    rw [hdec]
    exact List.mem_append.mpr (Or.inr (List.mem_singleton.mpr rfl))
  have hq2 : filterTracking (some (init ++ [(nm, v.dropLast)])) =
      some (init ++ [(nm, v.dropLast)]) := by
    refine filterTracking_some_of_elems ?_
    intro pr hpr
    rcases List.mem_append.mp hpr with hin | hlast
    · exact htrack pr (by rw [hdec]; exact List.mem_append.mpr (Or.inl hin))
    · rcases List.mem_singleton.mp hlast with rfl
      exact htrack (nm, v) hmemlast
  have hser2 : serializeChars (⟨sc, host, po, pa,
      some (init ++ [(nm, v.dropLast)]), none⟩ : URLRec) =
      ((sc ++ [':', '/', '/'] ++ host ++ portPart po ++ pa) ++
        '?' :: ((if init.isEmpty then [] else serializeParams init ++ ['&']) ++
          nm)) ++ '=' :: v.dropLast := by
    have hs := @serializeChars_qsome ⟨sc, host, po, pa,
      some (init ++ [(nm, v.dropLast)]), none⟩ (init ++ [(nm, v.dropLast)])
      rfl rfl
    rw [hs, serializeParams_snoc init nm v.dropLast]
    simp [List.append_assoc]
  have hLd : (serializeChars (⟨sc, host, po, pa, some ps, none⟩ :
      URLRec)).dropLast = serializeChars (⟨sc, host, po, pa,
      some (init ++ [(nm, v.dropLast)]), none⟩ : URLRec) := by
    rw [hL, hser2, dropLast_append_ne (List.cons_ne_nil _ _),
      dropLast_cons_ne hvne]
  have hwf2 : WFURL (⟨sc, host, po, pa,
      some (init ++ [(nm, v.dropLast)]), none⟩ : URLRec) := by
    refine ⟨hwfn.scheme_nonempty, hwfn.scheme_head_alpha, hwfn.scheme_chars,
      hwfn.scheme_lower, hwfn.host_no_delims, hwfn.host_ok, hwfn.port_ok,
      hwfn.port_nodefault, hwfn.path_head, hwfn.path_no_q, hwfn.path_no_h,
      ?_⟩
    intro ps' hps'
    have hpse : init ++ [(nm, v.dropLast)] = ps' := by simpa using hps'
    rw [← hpse]
    intro pr hpr
    rcases List.mem_append.mp hpr with hin | hlast
    · exact hwfn.query_ok ps rfl pr
        (by rw [hdec]; exact List.mem_append.mpr (Or.inl hin))
    · rcases List.mem_singleton.mp hlast with rfl
      have hpOK : paramOK (nm, v) := hwfn.query_ok ps rfl (nm, v) hmemlast
      exact ⟨hpOK.1, hpOK.2.1, hpOK.2.2.1,
        fun hm => hpOK.2.2.2.1 ((List.dropLast_sublist _).subset hm),
        fun hm => hpOK.2.2.2.2 ((List.dropLast_sublist _).subset hm)⟩
  have hstab2 : normalizeRec (⟨sc, host, po, pa,
      some (init ++ [(nm, v.dropLast)]), none⟩ : URLRec) =
      ⟨sc, host, po, pa, some (init ++ [(nm, v.dropLast)]), none⟩ :=
    normalizeRec_eq_self hsch hpo hw hlh hq2 rfl
  have hps2 : parseUrlChars (serializeChars (⟨sc, host, po, pa,
      some (init ++ [(nm, v.dropLast)]), none⟩ : URLRec)) =
      some (⟨sc, host, po, pa,
        some (init ++ [(nm, v.dropLast)]), none⟩ : URLRec) :=
    parse_serialize hwf2
  have hvdl : ('=' :: v.dropLast).getLast? ≠ some '/' := by
    cases hvd : v.dropLast with
    | nil => decide
    | cons a as =>
      rw [getLast?_cons_ne (by simp)]
      rw [← hvd]
      exact hnd init nm v hdec hvl
  have hgl2 : (serializeChars (⟨sc, host, po, pa,
      some (init ++ [(nm, v.dropLast)]), none⟩ : URLRec)).getLast? =
      ('=' :: v.dropLast).getLast? := by
    rw [hser2, getLast?_append_ne (List.cons_ne_nil _ _)]
  rw [hLd, normalizeChars.eq_def, hps2]
  simp only [hstab2]
  split
  next hcc => exact absurd (hgl2 ▸ hcc.1) hvdl
  next => rfl

/-- Fixed-point of `normalizeChars` on the output of one normalization pass:
the trimmed (or untrimmed) serialization of a well-formed, stable record
re-normalizes to itself under `noDoubleTrim`. -/
theorem trim_fix {n : URLRec} (hwfn : WFURL n) (hstab : normalizeRec n = n)
    (hnd : noDoubleTrim n) :
    normalizeChars
      (if (serializeChars n).getLast? = some '/' ∧ n.path ≠ "/".data
        then (serializeChars n).dropLast else serializeChars n) =
    some
      (if (serializeChars n).getLast? = some '/' ∧ n.path ≠ "/".data
        then (serializeChars n).dropLast else serializeChars n) := by
  by_cases hcnd : (serializeChars n).getLast? = some '/' ∧ n.path ≠ "/".data
  · rw [if_pos hcnd]
    obtain ⟨sc, host, po, pa, qq, fr⟩ := n
    have hfr : (none : Option (List Char)) = fr :=
      congrArg URLRec.fragment hstab
    have hfr2 : fr = none := hfr.symm
    subst hfr2
    cases qq with
    | none =>
      have hnd2 : pa.getLast? = some '/' → pa.dropLast.getLast? = some '/' →
          pa.dropLast = "/".data := hnd
      exact trim_fix_qnone hwfn hstab hnd2 hcnd.2 hcnd.1
    | some ps =>
      have hnd2 : ∀ init nm v, ps = init ++ [(nm, v)] →
          v.getLast? = some '/' → v.dropLast.getLast? ≠ some '/' := hnd
      exact trim_fix_qsome hwfn hstab hnd2 hcnd.1
  · rw [if_neg hcnd]
    rw [normalizeChars.eq_def, parse_serialize hwfn]
    simp only [hstab]
    split
    next hcc => exact absurd hcc hcnd
    next => rfl


/-- C5: counterexample to unconditional idempotence of `normalizeUrl`.  The
regex `replace(/^www\./, '')` strips only one `www.` per pass, so a host
`www.www.example.com` normalizes to `www.example.com`, which a second pass
normalizes further to `example.com`: `normalize(normalize(u)) ≠ normalize(u)`
for this parseable `u`. -/
theorem c5_counterexample_not_idempotent :
    normalizeUrl "https://www.www.example.com/" =
      some "https://www.example.com/" ∧
    normalizeUrl "https://www.example.com/" =
      some "https://example.com/" ∧
    ("https://www.example.com/" : String) ≠ "https://example.com/" :=
  ⟨rfl, rfl, by decide⟩

/-- C5 (amended): `normalizeUrl` is idempotent on every parseable URL whose
once-normalized form is stable: the stripped host must not still start with
`www.` (rules out `www.www.…` hosts) and the trailing-slash trim must not
leave another trimmable `/` behind (rules out paths or final query values
ending in `//`).  Under these two conditions, if `normalizeUrl s = some r`
then `normalizeUrl r = some r`. -/
theorem c5_normalize_idempotent {s r : String} {url : URLRec}
    (hp : parseURL s = some url)
    (hw : stripWwwHost (normalizeRec url).hostname =
      (normalizeRec url).hostname)
    (hnd : noDoubleTrim (normalizeRec url))
    (hn : normalizeUrl s = some r) :
    normalizeUrl r = some r := by
  have hchars : normalizeChars s.data = some r.data := by
    rw [normalizeUrl] at hn
    cases hc : normalizeChars s.data with
    | none =>
      rw [hc] at hn
      exact absurd hn (by simp)
    | some l =>
      rw [hc] at hn
      have hlr : String.mk l = r := by simpa using hn
      rw [← hlr]
  have hwf := normalizeRec_wf (parse_wf hp)
  have hstab := normalizeRec_idem hw
  rw [normalizeChars.eq_def] at hchars
  rw [show parseUrlChars s.data = some url from hp] at hchars
  simp only [] at hchars
  have hrd : (if (serializeChars (normalizeRec url)).getLast? = some '/' ∧
      (normalizeRec url).path ≠ "/".data
      then (serializeChars (normalizeRec url)).dropLast
      else serializeChars (normalizeRec url)) = r.data := by
    split at hchars
    next hcc =>
      rw [if_pos hcc]
      simpa using hchars
    next hcc =>
      rw [if_neg hcc]
      simpa using hchars
  have hfix := trim_fix hwf hstab hnd
  rw [hrd] at hfix
  rw [normalizeUrl, hfix]
  rfl

/-- Closed instance of the amended C5 theorem at a concrete stable URL. -/
theorem c5_witness :
    normalizeUrl "https://example.com/a" = some "https://example.com/a" :=
  @c5_normalize_idempotent "https://example.com/a" "https://example.com/a"
    ⟨"https".data, "example.com".data, none, "/a".data, none, none⟩
    rfl rfl (fun hx => absurd hx (by decide)) rfl

/-- C8: counterexample to "other parameters are left intact".  The
trailing-slash trim acts on the serialized string, so when the last query
parameter's value ends in `/`, normalization mutates that value: `id=9/`
becomes `id=9` although `id` is not a tracking parameter. -/
theorem c8_counterexample_value_trimmed :
    normalizeUrl "https://example.com/a?id=9/" =
      some "https://example.com/a?id=9" ∧
    (parseURL "https://example.com/a?id=9/").map URLRec.query =
      some (some [("id".data, "9/".data)]) ∧
    (parseURL "https://example.com/a?id=9").map URLRec.query =
      some (some [("id".data, "9".data)]) :=
  ⟨rfl, rfl, rfl⟩

/-- C8 (amended): at the parameter-list level the claim holds exactly: the
normalized record's query is the input's parameter list with precisely the
tracking parameters (name in `TRACKING_PARAMS` or prefixed `utm_`) deleted,
other parameters kept in order; and the spec's example normalizes as stated.
(Values are only guaranteed intact up to the later trailing-slash trim of the
serialized string, per the counterexample.) -/
theorem c8_tracking_params_filtered (u : URLRec)
    (ps : List (List Char × List Char)) (hq : u.query = some ps) :
    ((normalizeRec u).query).getD [] =
      ps.filter (fun pr => ¬ isTrackingParam pr.1) ∧
    normalizeUrl "https://example.com/a?utm_source=x&ref=y&id=9" =
      some "https://example.com/a?id=9" := by
  refine ⟨?_, rfl⟩
  have hrec : (normalizeRec u).query = filterTracking u.query := rfl
  rw [hrec, hq]
  simp only [filterTracking]
  split
  next hcc =>
    have hke : ps.filter (fun pr => ¬ isTrackingParam pr.1) = [] := by
      have := hcc.1
      simpa using this
    rw [hke]
    rfl
  next => rfl

/-- Closed instance of the amended C8 theorem at a concrete query. -/
theorem c8_witness :
    ((normalizeRec ⟨"https".data, "example.com".data, none, "/a".data,
        some [("utm_source".data, "x".data), ("id".data, "9".data)],
        none⟩).query).getD [] =
      [("utm_source".data, "x".data), ("id".data, "9".data)].filter
        (fun pr => ¬ isTrackingParam pr.1) ∧
    normalizeUrl "https://example.com/a?utm_source=x&ref=y&id=9" =
      some "https://example.com/a?id=9" :=
  c8_tracking_params_filtered
    ⟨"https".data, "example.com".data, none, "/a".data,
      some [("utm_source".data, "x".data), ("id".data, "9".data)], none⟩
    [("utm_source".data, "x".data), ("id".data, "9".data)] rfl

end Clawsidian
